import Mathlib

/-!
Verification development for `phylolabel`, a script that projects taxonomic
labels onto a phylogeny (`src/phylolabel.py`).

The tree-library operations used by the script (`Bio.Phylo.BaseTree`) are not
part of the repository; they are modelled from the specification (sections 3
and 4.1): a tree is a singly rooted, acyclic structure of clades, each clade
carrying an optional name, an optional branch length and an ordered list of
child clades.  Node identity (Python object identity) is modelled by a
numeric id `cid` carried on every clade; a well-formed tree has pairwise
distinct ids.  All ancestor/parent queries are modelled structurally, per the
specification's invariant that parent back-references always agree with the
child lists.  Branch lengths are modelled as rationals.
-/

/-- Modelled from the spec: a clade of a tree (`Bio.Phylo.BaseTree.Clade`),
with a node id standing for Python object identity. -/
inductive Clade where
  | mk (cid : Nat) (name : Option String) (branch_length : Option Rat) (clades : List Clade)

def Clade.cid : Clade → Nat
  | .mk i _ _ _ => i

def Clade.name : Clade → Option String
  | .mk _ n _ _ => n

def Clade.branch_length : Clade → Option Rat
  | .mk _ _ b _ => b

def Clade.clades : Clade → List Clade
  | .mk _ _ _ cs => cs

@[simp] theorem Clade.cid_mk (i n b cs) : (Clade.mk i n b cs).cid = i := rfl

@[simp] theorem Clade.name_mk (i n b cs) : (Clade.mk i n b cs).name = n := rfl

@[simp] theorem Clade.branch_length_mk (i n b cs) :
    (Clade.mk i n b cs).branch_length = b := rfl

@[simp] theorem Clade.clades_mk (i n b cs) : (Clade.mk i n b cs).clades = cs := rfl

theorem Clade.ext_mk (c : Clade) : c = .mk c.cid c.name c.branch_length c.clades := by
  cases c; rfl

mutual

/-- Decidable equality for clades (Python object equality is identity;
this structural equality is used only to state theorems and witnesses). -/
def Clade.deq : (a b : Clade) → Decidable (a = b)
  | .mk i1 n1 b1 cs1, .mk i2 n2 b2 cs2 =>
    match decEq i1 i2 with
    | .isFalse h => .isFalse (by intro he; injection he; contradiction)
    | .isTrue h1 =>
      match decEq n1 n2 with
      | .isFalse h => .isFalse (by intro he; injection he; contradiction)
      | .isTrue h2 =>
        match decEq b1 b2 with
        | .isFalse h => .isFalse (by intro he; injection he; contradiction)
        | .isTrue h3 =>
          match Clade.deqL cs1 cs2 with
          | .isFalse h => .isFalse (by intro he; injection he; contradiction)
          | .isTrue h4 => .isTrue (by rw [h1, h2, h3, h4])

def Clade.deqL : (a b : List Clade) → Decidable (a = b)
  | [], [] => .isTrue rfl
  | [], _ :: _ => .isFalse (by intro he; exact List.noConfusion he)
  | _ :: _, [] => .isFalse (by intro he; exact List.noConfusion he)
  | a :: as, b :: bs =>
    match Clade.deq a b with
    | .isFalse h => .isFalse (by intro he; injection he; contradiction)
    | .isTrue h1 =>
      match Clade.deqL as bs with
      | .isFalse h => .isFalse (by intro he; injection he; contradiction)
      | .isTrue h2 => .isTrue (by rw [h1, h2])

end

instance : DecidableEq Clade := Clade.deq

mutual

theorem Clade.inductAux (P : Clade → Prop)
    (h : ∀ i n b cs, (∀ c ∈ cs, P c) → P (.mk i n b cs)) : ∀ c, P c
  | .mk i n b cs => h i n b cs (Clade.inductAuxL P h cs)

theorem Clade.inductAuxL (P : Clade → Prop)
    (h : ∀ i n b cs, (∀ c ∈ cs, P c) → P (.mk i n b cs)) :
    ∀ cs : List Clade, ∀ c ∈ cs, P c
  | c :: cs, d, hd =>
    Or.elim (List.mem_cons.mp hd)
      (fun he => he ▸ Clade.inductAux P h c)
      (fun hm => Clade.inductAuxL P h cs d hm)

end

/-- Induction principle for clade trees: to prove a property of every clade it
suffices to prove it for a node given that it holds for all children. -/
@[induction_eliminator]
theorem Clade.induct (P : Clade → Prop)
    (h : ∀ i n b cs, (∀ c ∈ cs, P c) → P (.mk i n b cs)) (c : Clade) : P c :=
  Clade.inductAux P h c

/-- Truthiness of an optional name, as Python evaluates `if x.name:`:
`None` and the empty string are falsy. -/
def truthy : Option String → Bool
  | none => false
  | some s => s != ""

mutual

/-- Modelled from the spec: `find_elements()`, all clades of a subtree in
preorder, the subtree's root first. -/
def findElements : Clade → List Clade
  | .mk i n b cs => .mk i n b cs :: findElementsL cs

def findElementsL : List Clade → List Clade
  | [] => []
  | c :: cs => findElements c ++ findElementsL cs

end

theorem findElementsL_eq (cs : List Clade) :
    findElementsL cs = cs.flatMap findElements := by
  induction cs with
  | nil => rfl
  | cons c cs ih => rw [findElementsL, ih, List.flatMap_cons]

theorem findElements_def (i n b cs) :
    findElements (.mk i n b cs) = .mk i n b cs :: cs.flatMap findElements := by
  rw [findElements, findElementsL_eq]

/-- Replace each underscore by a space in a name, as Python's
`name.replace('_', ' ')` does for the single-character pattern. -/
def normChar (c : Char) : Char := if c = '_' then ' ' else c

def normStr (s : String) : String := .mk (s.data.map normChar)

/-- Name update performed by `convert_labels` on one node
(`if x.name: x.name = x.name.replace('_', ' ')`). -/
def convertName (o : Option String) : Option String :=
  if truthy o then o.map normStr else o

mutual

/-- Embedding of `convert_labels` (src/phylolabel.py lines 14-18): replace
underscores with spaces in every node name of the tree. -/
def convertLabels : Clade → Clade
  | .mk i n b cs => .mk i (convertName n) b (convertLabelsL cs)

def convertLabelsL : List Clade → List Clade
  | [] => []
  | c :: cs => convertLabels c :: convertLabelsL cs

end

theorem convertLabelsL_eq (cs : List Clade) :
    convertLabelsL cs = cs.map convertLabels := by
  induction cs with
  | nil => rfl
  | cons c cs ih => rw [convertLabelsL, ih, List.map_cons]

theorem convertLabels_def (i n b cs) :
    convertLabels (.mk i n b cs) = .mk i (convertName n) b (cs.map convertLabels) := by
  rw [convertLabels, convertLabelsL_eq]

/-- Modelled from the spec: `find_any(name)` through the Name Index — the
first node of the tree, in preorder, whose name equals the given string. -/
def findAny (t : Clade) (s : String) : Option Clade :=
  (findElements t).find? (fun c => c.name = some s)

/-- Lookup of `find_any` on an optional name; the script only invokes
`find_any` with truthy (non-`None`) names. -/
def findAnyO (t : Clade) (o : Option String) : Option Clade :=
  match o with
  | some s => findAny t s
  | none => none

mutual

/-- Modelled from the spec: the path of clades from the given (sub)tree root
down to the node with the given id, both ends included; `none` if absent.
Underlies the structural ancestor and common-ancestor queries. -/
def pathTo : Clade → Nat → Option (List Clade)
  | .mk i n b cs, t =>
    if i = t then some [.mk i n b cs]
    else (pathToL cs t).map (fun p => .mk i n b cs :: p)

def pathToL : List Clade → Nat → Option (List Clade)
  | [], _ => none
  | c :: cs, t =>
    match pathTo c t with
    | some p => some p
    | none => pathToL cs t

end

/-- Modelled from the spec: `get_parents(False)` — the ancestors of the node
with the given id, nearest first, up to and including the tree root. -/
def getParents (root : Clade) (t : Nat) : List Clade :=
  match pathTo root t with
  | some p => p.dropLast.reverse
  | none => []

/-- The structural parent of the node with the given id (`_parent`). -/
def parentOfId (root : Clade) (t : Nat) : Option Clade :=
  (getParents root t).head?

/-- One step of the common-ancestor descent: follow the paths downward while
they all agree on the next clade (zip-of-paths, as the spec's
`common_ancestor` computes the lowest common node). -/
def caGo : Clade → List Clade → List (List Clade) → Clade
  | cur, [], _ => cur
  | cur, x :: xs, rest =>
    if rest.all (fun l => match l.head? with | some y => y.cid = x.cid | none => false) then
      caGo x xs (rest.map (·.tail))
    else cur

/-- Modelled from the spec: `common_ancestor(targets)` — the unique lowest
node that is an ancestor of (or equal to) every target; `none` (an
`InvalidQuery` error) for an empty target set or a target absent from the
tree. -/
def commonAncestor (root : Clade) (targets : List Nat) : Option Clade :=
  match targets with
  | [] => none
  | _ =>
    match targets.mapM (pathTo root) with
    | some (p :: ps) => some (caGo root p.tail (ps.map (·.tail)))
    | some [] => none
    | none => none

mutual

/-- Rewriting the node of the given id in place (Python mutates the clade
object); the transformation is applied at every occurrence of the id, which
is the unique occurrence in a well-formed tree. -/
def replaceNode : Clade → Nat → (Clade → Clade) → Clade
  | .mk i n b cs, t, f =>
    if i = t then f (.mk i n b cs) else .mk i n b (replaceNodeL cs t f)

def replaceNodeL : List Clade → Nat → (Clade → Clade) → List Clade
  | [], _, _ => []
  | c :: cs, t, f => replaceNode c t f :: replaceNodeL cs t f

end

theorem replaceNodeL_eq (cs : List Clade) (t f) :
    replaceNodeL cs t f = cs.map (replaceNode · t f) := by
  induction cs with
  | nil => rfl
  | cons c cs ih => rw [replaceNodeL, ih, List.map_cons]

theorem replaceNode_def (i n b cs) (t f) :
    replaceNode (.mk i n b cs) t f =
      if i = t then f (.mk i n b cs) else .mk i n b (cs.map (replaceNode · t f)) := by
  rw [replaceNode, replaceNodeL_eq]

/-- In-place renaming of the node with the given id
(`group_root.name = parent.name`). -/
def setName (root : Clade) (t : Nat) (nm : Option String) : Clade :=
  replaceNode root t (fun c => .mk c.cid nm c.branch_length c.clades)

/-- Leaves of the tree (`get_terminals()`), in preorder. -/
def getTerminals (t : Clade) : List Clade :=
  (findElements t).filter (fun c => c.clades.isEmpty)

/-- The named terminal nodes of the phylogeny (src line 46:
`[sp for sp in phylogeny.get_terminals() if sp.name]`). -/
def speciesOf (t : Clade) : List Clade :=
  (getTerminals t).filter (fun c => truthy c.name)

/-- Association-list lookup; entries are prepended, so the first match is the
most recent write, matching Python dict overwrite semantics. -/
def lookupA (m : List (Nat × Nat)) (k : Nat) : Option Nat :=
  (m.find? (fun e => e.1 = k)).map (·.2)

/-- One step of the correspondence-map construction: look the leaf's name up
in the taxonomy and record the pair in both direction maps if found. -/
def buildStep (tax : Clade) (ms : List (Nat × Nat) × List (Nat × Nat)) (sp : Clade) :
    List (Nat × Nat) × List (Nat × Nat) :=
  match sp.name with
  | some s =>
    match findAny tax s with
    | some x => ((sp.cid, x.cid) :: ms.1, (x.cid, sp.cid) :: ms.2)
    | none => ms
  | none => ms

/-- Embedding of the correspondence-map construction (src lines 50-56): for
each named phylogeny leaf, find a taxonomy node of the same name and record
the pair in both directions. -/
def buildMaps (tax : Clade) (sps : List Clade) : List (Nat × Nat) × List (Nat × Nat) :=
  sps.foldl (buildStep tax) ([], [])

/-- Largest id occurring in a tree; fresh ids for nodes created during
surgery (fresh Python objects) are allocated above it. -/
def maxId (t : Clade) : Nat :=
  (findElements t).foldl (fun m c => max m c.cid) 0

/-- State threaded through the propagation loop: the phylogeny being
mutated, the processed-label set `done`, and the next fresh node id. -/
structure EngineSt where
  tree : Clade
  done : List (Option String)
  ctr : Nat

theorem EngineSt.eta (s : EngineSt) : s = ⟨s.tree, s.done, s.ctr⟩ := rfl

/-- Projection of a taxonomy subtree into the phylogeny (src lines 70-71):
all nodes of `a`'s subtree that have a phylogeny correspondence, replaced by
their phylogeny counterparts. -/
def fellowsOf (t2p : List (Nat × Nat)) (a : Clade) : List Nat :=
  (findElements a).filterMap (fun x => lookupA t2p x.cid)

/-- Zero-length-branch named prefix of an ancestor chain (src lines 85-89 and
109-112 walk ancestors while `x.branch_length == 0 and x.name`). -/
def isZeroNamed (c : Clade) : Bool :=
  c.branch_length = some 0 && truthy c.name

/-- The co-located label chain above a node: the maximal prefix of its
ancestors connected by zero-length branches and carrying names. -/
def zeroChain (parents : List Clade) : List Clade :=
  parents.takeWhile isZeroNamed

/-- Embedding of `old_otus` (src lines 84-89): the taxonomy counterpart (via
`find_any`) of `group_root`'s own name, followed by the counterparts of the
zero-length-branch named ancestors, nearest first.  Entries hold taxonomy
node ids; `find_any` misses are kept as `none` as in the Python list. -/
def oldOtus (tax : Clade) (gr : Clade) (parents : List Clade) : List (Option Nat) :=
  (findAnyO tax gr.name).map Clade.cid ::
    (zeroChain parents).map (fun x => (findAnyO tax x.name).map Clade.cid)

/-- The outward walk of the no-match branch (src lines 109-112): keep
reassigning `group_root` to the next ancestor while it is zero-length and
named, stopping at the first ancestor that is not. -/
def zeroWalk (gr : Clade) (parents : List Clade) : Clade :=
  (zeroChain parents).foldl (fun _ x => x) gr

/-- The membership test of src line 94, `old_otu in new_otu.get_parents(False)`:
does this (possibly missing) `old_otus` entry name a taxonomy ancestor of the
new label?  `anc` holds the ids of the taxonomy ancestors. -/
def otuMatch (anc : List Nat) (o : Option Nat) : Bool :=
  match o with
  | some y => anc.contains y
  | none => false

/-- Embedding of the tree-surgery conflict resolution (src lines 78-121),
invoked when `group_root` (here `gr`) already carries a truthy name and the
taxonomy ancestor `a` claims the same phylogeny position. -/
def surgery (tax : Clade) (a : Clade) (gr : Clade) (st : EngineSt) : Except String EngineSt :=
  let parents := getParents st.tree gr.cid
  let otus := oldOtus tax gr parents
  let anc := (getParents tax a.cid).map Clade.cid
  match otus.findIdx? (otuMatch anc) with
  | some n =>
    match (gr :: parents).get? n with
    | some x =>
      .ok ⟨replaceNode st.tree x.cid (fun y =>
              .mk y.cid y.name y.branch_length [.mk st.ctr a.name (some 0) y.clades]),
            st.done, st.ctr + 1⟩
    | none => .error "walk off tree"
  | none =>
    let outer := zeroWalk gr parents
    if outer.cid = st.tree.cid then
      .ok ⟨.mk st.ctr a.name (some 0) [st.tree], st.done, st.ctr + 1⟩
    else
      match parentOfId st.tree outer.cid with
      | some p =>
        .ok ⟨replaceNode st.tree p.cid (fun y =>
                .mk y.cid y.name y.branch_length
                  ((y.clades.eraseP (fun c => c.cid = outer.cid)) ++
                    [.mk st.ctr a.name (some 0) [outer]])),
              st.done, st.ctr + 1⟩
      | none => .error "node detached"

/-- Addition to the processed-label set (`done.add(...)`). -/
def insertD (d : List (Option String)) (nm : Option String) : List (Option String) :=
  if nm ∈ d then d else d ++ [nm]

/-- Embedding of the per-ancestor body of the propagation loop (src lines
67-123): skip processed names, compute the phylogeny common ancestor of the
projected fellows, label it if unnamed, otherwise perform surgery, and mark
the ancestor's name processed. -/
def ancestorStep (tax : Clade) (t2p : List (Nat × Nat)) (st : EngineSt) (a : Clade) :
    Except String EngineSt :=
  if a.name ∈ st.done then .ok st
  else
    match commonAncestor st.tree (fellowsOf t2p a) with
    | none => .error "InvalidQuery"
    | some gr =>
      if truthy gr.name then
        match surgery tax a gr st with
        | .ok st2 => .ok ⟨st2.tree, insertD st2.done a.name, st2.ctr⟩
        | .error e => .error e
      else
        .ok ⟨setName st.tree gr.cid a.name, insertD st.done a.name, st.ctr⟩

/-- Embedding of the per-leaf body of the propagation loop (src lines
61-125): skip unmapped or already-processed leaves, fold the ancestor step
over the taxonomy ancestors of the counterpart, nearest first, then mark the
leaf's name processed. -/
def leafStep (tax : Clade) (p2t t2p : List (Nat × Nat)) (st : EngineSt) (sp : Clade) :
    Except String EngineSt :=
  match lookupA p2t sp.cid with
  | none => .ok st
  | some tx =>
    if sp.name ∈ st.done then .ok st
    else
      match (getParents tax tx).foldlM (ancestorStep tax t2p) st with
      | .ok st2 => .ok ⟨st2.tree, insertD st2.done sp.name, st2.ctr⟩
      | .error e => .error e

/-- Taxonomy subsetting (src lines 34-39): if a truthy `tax_root` hint names
a taxonomy node, the subtree rooted there becomes the taxonomy; the detach
from the old parent has no further observable effect.  Modelled from the
spec for the library part: `Tree(root=top_node)` is the subtree as a tree. -/
def pruneTax (t : Clade) (r : Option String) : Clade :=
  match r with
  | none => t
  | some s =>
    if s = "" then t
    else
      match findAny t s with
      | some sub => sub
      | none => t

/-- Embedding of `label_tree` (src lines 20-127): normalize both trees,
optionally subset the taxonomy, build the leaf correspondence, and run the
propagation loop over the named phylogeny leaves in preorder. -/
def labelTree (phy tax : Clade) (taxRoot : Option String) :
    Except String (Clade × List (Option String)) :=
  let p := convertLabels phy
  let t := pruneTax (convertLabels tax) taxRoot
  let sps := speciesOf p
  let ms := buildMaps t sps
  match sps.foldlM (leafStep t ms.1 ms.2) ⟨p, [], maxId p + 1⟩ with
  | .ok st => .ok (st.tree, st.done)
  | .error e => .error e

/-- Leaf observations of a tree: the (name, branch length) pairs of its
terminal nodes, in traversal order. -/
def leafData (t : Clade) : List (Option String × Option Rat) :=
  (getTerminals t).map (fun c => (c.name, c.branch_length))

/-- Ids of all nodes of a tree. -/
def treeIds (t : Clade) : List Nat :=
  (findElements t).map Clade.cid

/-- Well-formedness of a tree arena: all node ids are pairwise distinct, so
ids faithfully model Python object identity, every node has exactly one
parent position, and the parent/child graph is a rooted tree. -/
def wfTree (t : Clade) : Prop :=
  (treeIds t).Nodup

instance (t : Clade) : Decidable (wfTree t) := by
  unfold wfTree; infer_instance

/-! ## Lemmas about the label normalizer -/

theorem normChar_idem (c : Char) : normChar (normChar c) = normChar c := by
  by_cases h : c = '_' <;> simp [normChar, h]

theorem normStr_idem (s : String) : normStr (normStr s) = normStr s := by
  cases s with
  | mk l =>
    show String.mk ((l.map normChar).map normChar) = String.mk (l.map normChar)
    rw [List.map_map]
    exact congrArg String.mk (List.map_congr_left (fun a _ => normChar_idem a))

theorem normStr_eq_empty_iff (s : String) : normStr s = "" ↔ s = "" := by
  cases s with
  | mk l =>
    constructor
    · intro h
      have : l.map normChar = [] := congrArg String.data h
      simp only [List.map_eq_nil_iff] at this
      rw [this]
    · intro h; rw [h]; rfl

theorem truthy_some_iff (s : String) : truthy (some s) = true ↔ s ≠ "" := by
  simp [truthy, bne_iff_ne]

theorem convertName_idem (o : Option String) : convertName (convertName o) = convertName o := by
  cases o with
  | none => rfl
  | some s =>
    by_cases h : s = ""
    · subst h; rfl
    · have h1 : truthy (some s) = true := (truthy_some_iff s).mpr h
      have h2 : truthy (some (normStr s)) = true :=
        (truthy_some_iff _).mpr (fun he => h ((normStr_eq_empty_iff s).mp he))
      simp only [convertName, h1, if_true, Option.map_some']
      simp only [h2, if_true, Option.map_some', normStr_idem]

theorem convertName_none : convertName none = none := rfl

theorem convertLabels_idem (t : Clade) : convertLabels (convertLabels t) = convertLabels t := by
  induction t with
  | h i n b cs ih =>
    rw [convertLabels_def, convertLabels_def, convertName_idem, List.map_map]
    exact congrArg _ (List.map_congr_left (fun c hc => ih c hc))

theorem findElements_convertLabels (t : Clade) :
    findElements (convertLabels t) = (findElements t).map convertLabels := by
  induction t with
  | h i n b cs ih =>
    rw [convertLabels_def, findElements_def, findElements_def, List.map_cons,
      convertLabels_def]
    congr 1
    rw [List.flatMap_map, List.map_flatMap]
    exact List.flatMap_congr (fun c hc => ih c hc)

theorem convertLabels_mem_fixed {t : Clade} {c : Clade}
    (hc : c ∈ findElements (convertLabels t)) : convertLabels c = c := by
  rw [findElements_convertLabels] at hc
  obtain ⟨d, _, rfl⟩ := List.mem_map.mp hc
  exact convertLabels_idem d

/-! ## Claim C8: the label normalizer -/

/-- C8: the label normalizer (`convert_labels`) is a pure total function; it
replaces underscores by spaces in every node name (the name of every element
of the result is the normalized name of the corresponding input element),
applying it twice yields exactly the same names as applying it once
(idempotence), and absent names are left untouched. -/
theorem claim_c8 :
    (∀ t, convertLabels (convertLabels t) = convertLabels t) ∧
    (∀ t, (findElements (convertLabels t)).map Clade.name =
      (findElements t).map (fun c => convertName c.name)) ∧
    (∀ c : Clade, c.name = none → (convertLabels c).name = none) := by
  refine ⟨convertLabels_idem, ?_, ?_⟩
  · intro t
    rw [findElements_convertLabels, List.map_map]
    refine List.map_congr_left (fun c _ => ?_)
    cases c; rfl
  · intro c h
    cases c with
    | mk i n b cs =>
      simp only [Clade.name_mk] at h
      rw [convertLabels_def, h]; rfl

/-- Witness for C8 at a concrete clade: a node with an absent name keeps an
absent name after normalization. -/
theorem claim_c8_witness :
    (Clade.mk 0 none none []).name = none ∧
      (convertLabels (Clade.mk 0 none none [])).name = none :=
  ⟨rfl, claim_c8.2.2 _ rfl⟩

/-! ## Claim C9: determinism -/

/-- C9: `label_tree` is deterministic — two runs on equal phylogenies, equal
taxonomies and equal `tax_root` hints produce identical resulting phylogenies
and identical returned label sets (the embedding is a pure function of its
inputs: no iteration order or other behavior varies between runs). -/
theorem claim_c9 :
    ∀ p1 p2 t1 t2 : Clade, ∀ r1 r2 : Option String,
      p1 = p2 → t1 = t2 → r1 = r2 → labelTree p1 t1 r1 = labelTree p2 t2 r2 := by
  intro p1 p2 t1 t2 r1 r2 hp ht hr
  rw [hp, ht, hr]

/-- Witness for C9 at concrete inputs. -/
theorem claim_c9_witness :
    labelTree (.mk 0 (some "a") none []) (.mk 1 (some "a") none []) none =
      labelTree (.mk 0 (some "a") none []) (.mk 1 (some "a") none []) none :=
  claim_c9 _ _ _ _ _ _ rfl rfl rfl

/-! ## Claim C10: unmatched tax_root hint -/

/-- C10: when `tax_root` is a non-empty name that matches no node of the
normalized taxonomy, no error is raised and no pruning occurs — the run is
exactly the run without a `tax_root` hint. -/
theorem claim_c10 :
    ∀ phy tax : Clade, ∀ r : String, r ≠ "" →
      findAny (convertLabels tax) r = none →
      labelTree phy tax (some r) = labelTree phy tax none := by
  intro phy tax r hr hfind
  unfold labelTree
  have : pruneTax (convertLabels tax) (some r) = pruneTax (convertLabels tax) none := by
    simp [pruneTax, hr, hfind]
  rw [this]

/-- Witness for C10: a concrete run with a hint that matches nothing. -/
theorem claim_c10_witness :
    (("Zed" : String) ≠ "" ∧
      findAny (convertLabels (Clade.mk 1 (some "a") none [])) "Zed" = none) ∧
    labelTree (.mk 0 (some "a") none []) (.mk 1 (some "a") none []) (some "Zed") =
      labelTree (.mk 0 (some "a") none []) (.mk 1 (some "a") none []) none :=
  ⟨⟨by decide, by rfl⟩, claim_c10 _ _ "Zed" (by decide) (by rfl)⟩

/-! ## Claim C7: taxonomy subsetting via tax_root -/

theorem findAny_mem {t : Clade} {s : String} {c : Clade} (h : findAny t s = some c) :
    c ∈ findElements t :=
  List.mem_of_find?_eq_some h

/-- C7: when a truthy `tax_root` hint names a node of the normalized
taxonomy, the taxonomy is pruned to the subtree rooted at that node before
the correspondence maps are built, and that subtree is the taxonomy used by
every subsequent step: the whole run equals a run that receives the subtree
as its taxonomy with no hint. -/
theorem claim_c7 :
    ∀ phy tax sub : Clade, ∀ r : String, r ≠ "" →
      findAny (convertLabels tax) r = some sub →
      pruneTax (convertLabels tax) (some r) = sub ∧
        labelTree phy tax (some r) = labelTree phy sub none := by
  intro phy tax sub r hr hfind
  have hprune : pruneTax (convertLabels tax) (some r) = sub := by
    simp [pruneTax, hr, hfind]
  refine ⟨hprune, ?_⟩
  have hsub : convertLabels sub = sub := convertLabels_mem_fixed (findAny_mem hfind)
  simp only [labelTree]
  rw [hprune, show pruneTax (convertLabels sub) none = convertLabels sub from rfl, hsub]

/-- Witness for C7: a concrete run in which the hint selects a proper
subtree of the taxonomy. -/
theorem claim_c7_witness :
    (("S" : String) ≠ "" ∧
      findAny (convertLabels (Clade.mk 10 (some "R") none
        [.mk 11 (some "S") none [.mk 12 (some "x") none []]])) "S" =
        some (.mk 11 (some "S") none [.mk 12 (some "x") none []])) ∧
    pruneTax (convertLabels (Clade.mk 10 (some "R") none
        [.mk 11 (some "S") none [.mk 12 (some "x") none []]])) (some "S") =
      .mk 11 (some "S") none [.mk 12 (some "x") none []] ∧
    labelTree (.mk 0 (some "x") (some 1) [])
        (.mk 10 (some "R") none [.mk 11 (some "S") none [.mk 12 (some "x") none []]])
        (some "S") =
      labelTree (.mk 0 (some "x") (some 1) [])
        (.mk 11 (some "S") none [.mk 12 (some "x") none []]) none :=
  ⟨⟨by decide, by rfl⟩,
    claim_c7 _ _ _ "S" (by decide) (by rfl)⟩

/-! ## Lemmas about the processed-label set -/

theorem subset_insertD (d : List (Option String)) (nm : Option String) : d ⊆ insertD d nm := by
  unfold insertD
  split
  · exact fun x h => h
  · exact List.subset_append_left d [nm]

theorem mem_insertD_self (d : List (Option String)) (nm : Option String) : nm ∈ insertD d nm := by
  unfold insertD
  split
  · assumption
  · exact List.mem_append_right d (List.mem_singleton.mpr rfl)

theorem surgery_done {tax a gr : Clade} {st st2 : EngineSt}
    (hs : surgery tax a gr st = .ok st2) : st2.done = st.done := by
  simp only [surgery] at hs
  split at hs
  · split at hs
    · simp only [Except.ok.injEq] at hs; subst hs; rfl
    · simp at hs
  · split at hs
    · simp only [Except.ok.injEq] at hs; subst hs; rfl
    · split at hs
      · simp only [Except.ok.injEq] at hs; subst hs; rfl
      · simp at hs

theorem ancestorStep_skip {tax : Clade} {t2p : List (Nat × Nat)} {st : EngineSt} {a : Clade}
    (h : a.name ∈ st.done) : ancestorStep tax t2p st a = .ok st := by
  unfold ancestorStep
  simp [h]

theorem ancestorStep_done_mono {tax : Clade} {t2p : List (Nat × Nat)} {st : EngineSt} {a : Clade}
    {st2 : EngineSt} (h : ancestorStep tax t2p st a = .ok st2) :
    st.done ⊆ st2.done ∧ a.name ∈ st2.done := by
  unfold ancestorStep at h
  split at h
  · simp only [Except.ok.injEq] at h; subst h
    exact ⟨fun x hx => hx, by assumption⟩
  · split at h
    · simp at h
    · split at h
      · split at h
        · simp only [Except.ok.injEq] at h; subst h
          rename_i st3 hs
          refine ⟨?_, mem_insertD_self _ _⟩
          have hd := surgery_done hs
          simp only []
          rw [← hd]
          exact fun x hx => subset_insertD _ _ (hd ▸ hx)
        · simp at h
      · simp only [Except.ok.injEq] at h; subst h
        exact ⟨subset_insertD _ _, mem_insertD_self _ _⟩

theorem ancestorsFold_done_mono {tax : Clade} {t2p : List (Nat × Nat)} :
    ∀ (l : List Clade) (st st2 : EngineSt),
      l.foldlM (ancestorStep tax t2p) st = .ok st2 → st.done ⊆ st2.done := by
  intro l
  induction l with
  | nil =>
    intro st st2 h
    simp only [List.foldlM_nil] at h
    simp only [pure, Except.pure, Except.ok.injEq] at h
    subst h; exact fun x hx => hx
  | cons a l ih =>
    intro st st2 h
    rw [List.foldlM_cons] at h
    cases ha : ancestorStep tax t2p st a with
    | error e => rw [ha] at h; simp [bind, Except.bind] at h
    | ok stm =>
      rw [ha] at h
      simp only [bind, Except.bind] at h
      exact fun x hx => ih stm st2 h ((ancestorStep_done_mono ha).1 hx)

theorem leafStep_done_mono {tax : Clade} {p2t t2p : List (Nat × Nat)} {st : EngineSt}
    {sp : Clade} {st2 : EngineSt} (h : leafStep tax p2t t2p st sp = .ok st2) :
    st.done ⊆ st2.done := by
  unfold leafStep at h
  split at h
  · simp only [Except.ok.injEq] at h; subst h; exact fun x hx => hx
  · split at h
    · simp only [Except.ok.injEq] at h; subst h; exact fun x hx => hx
    · split at h
      · simp only [Except.ok.injEq] at h; subst h
        rename_i st3 hf
        exact fun x hx => subset_insertD _ _ (ancestorsFold_done_mono _ _ _ hf hx)
      · simp at h

/-! ## Claim C3: ancestor propagation order and the processed-label set -/

/-- C3: the propagation engine folds the per-ancestor step over the taxonomy
ancestors of each mapped leaf's counterpart, nearest first (definitionally,
`leafStep`); an ancestor whose name is already in the processed-label set is
skipped (the step is the identity), every non-skipped ancestor is resolved
(labeled or reconciled) and its name then enters the set, and the set only
grows across ancestor steps and leaf steps — so each taxonomic name is
resolved at most once per run. -/
theorem claim_c3 :
    (∀ (tax : Clade) (t2p : List (Nat × Nat)) (st : EngineSt) (a : Clade),
      a.name ∈ st.done → ancestorStep tax t2p st a = .ok st) ∧
    (∀ (tax : Clade) (t2p : List (Nat × Nat)) (st : EngineSt) (a : Clade) (st2 : EngineSt),
      ancestorStep tax t2p st a = .ok st2 → st.done ⊆ st2.done ∧ a.name ∈ st2.done) ∧
    (∀ (tax : Clade) (t2p : List (Nat × Nat)) (l : List Clade) (st st2 : EngineSt),
      l.foldlM (ancestorStep tax t2p) st = .ok st2 → st.done ⊆ st2.done) ∧
    (∀ (tax : Clade) (p2t t2p : List (Nat × Nat)) (st : EngineSt) (sp : Clade) (st2 : EngineSt),
      leafStep tax p2t t2p st sp = .ok st2 → st.done ⊆ st2.done) :=
  ⟨fun _ _ _ _ h => ancestorStep_skip h,
   fun _ _ _ _ _ h => ancestorStep_done_mono h,
   fun _ _ l st st2 h => ancestorsFold_done_mono l st st2 h,
   fun _ _ _ _ _ _ h => leafStep_done_mono h⟩

/-- Witness for C3 at a concrete state: an ancestor named `A` already in the
processed set is skipped, and the skip both preserves and keeps its name in
the set. -/
theorem claim_c3_witness :
    ((some "A" : Option String) ∈ (⟨Clade.mk 0 (some "x") none [], [some "A"], 5⟩ : EngineSt).done ∧
      ancestorStep (Clade.mk 9 (some "A") none []) []
          ⟨Clade.mk 0 (some "x") none [], [some "A"], 5⟩ (Clade.mk 9 (some "A") none []) =
        .ok ⟨Clade.mk 0 (some "x") none [], [some "A"], 5⟩) ∧
    ((⟨Clade.mk 0 (some "x") none [], [some "A"], 5⟩ : EngineSt).done ⊆
        (⟨Clade.mk 0 (some "x") none [], [some "A"], 5⟩ : EngineSt).done ∧
      (Clade.mk 9 (some "A") none []).name ∈
        (⟨Clade.mk 0 (some "x") none [], [some "A"], 5⟩ : EngineSt).done) := by
  have h1 : (Clade.mk 9 (some "A") none []).name ∈
      (⟨Clade.mk 0 (some "x") none [], [some "A"], 5⟩ : EngineSt).done := by decide
  have h2 := claim_c3.1 (Clade.mk 9 (some "A") none []) []
    ⟨Clade.mk 0 (some "x") none [], [some "A"], 5⟩ (Clade.mk 9 (some "A") none []) h1
  exact ⟨⟨h1, h2⟩, claim_c3.2.1 (Clade.mk 9 (some "A") none []) []
    ⟨Clade.mk 0 (some "x") none [], [some "A"], 5⟩ (Clade.mk 9 (some "A") none []) _ h2⟩

/-! ## Structural toolkit: elements, ids, well-formedness -/

theorem mem_findElements_mk {p : Clade} {i n b cs} :
    p ∈ findElements (.mk i n b cs) ↔ p = .mk i n b cs ∨ ∃ c ∈ cs, p ∈ findElements c := by
  rw [findElements_def, List.mem_cons, List.mem_flatMap]

theorem self_mem_findElements (t : Clade) : t ∈ findElements t := by
  cases t with
  | mk i n b cs => rw [findElements_def]; exact List.mem_cons_self _ _

theorem findElements_trans {t c : Clade} (h : c ∈ findElements t) :
    findElements c ⊆ findElements t := by
  induction t with
  | h i n b cs ih =>
    rcases mem_findElements_mk.mp h with rfl | ⟨d, hd, hcd⟩
    · exact fun x hx => hx
    · intro x hx
      exact mem_findElements_mk.mpr (Or.inr ⟨d, hd, ih d hd hcd hx⟩)

theorem sizeOf_lt_of_mem_findElements {t c : Clade} (h : c ∈ findElements t) :
    c = t ∨ sizeOf c < sizeOf t := by
  induction t with
  | h i n b cs ih =>
    rcases mem_findElements_mk.mp h with rfl | ⟨d, hd, hcd⟩
    · exact Or.inl rfl
    · refine Or.inr ?_
      have h1 : sizeOf d < sizeOf (Clade.mk i n b cs) := by
        have := List.sizeOf_lt_of_mem hd
        simp only [Clade.mk.sizeOf_spec]
        omega
      rcases ih d hd hcd with rfl | h2
      · exact h1
      · exact lt_trans h2 h1

theorem findElements_antisymm {c d : Clade} (h1 : c ∈ findElements d)
    (h2 : d ∈ findElements c) : c = d := by
  rcases sizeOf_lt_of_mem_findElements h1 with h | h
  · exact h
  · rcases sizeOf_lt_of_mem_findElements h2 with h' | h'
    · exact h'.symm
    · omega

theorem treeIds_def (i n b cs) : treeIds (.mk i n b cs) = i :: cs.flatMap treeIds := by
  unfold treeIds
  rw [findElements_def, List.map_cons, Clade.cid_mk]
  congr 1
  rw [List.map_flatMap]

theorem cid_mem_treeIds {t c : Clade} (h : c ∈ findElements t) : c.cid ∈ treeIds t :=
  List.mem_map_of_mem Clade.cid h

theorem wf_mk_iff {i n b cs} :
    wfTree (.mk i n b cs) ↔ i ∉ cs.flatMap treeIds ∧ (cs.flatMap treeIds).Nodup := by
  rw [wfTree, treeIds_def, List.nodup_cons]

theorem treeIds_sublist_of_mem {cs : List Clade} {c : Clade} (hc : c ∈ cs) :
    List.Sublist (treeIds c) (cs.flatMap treeIds) := by
  rw [List.flatMap_def]
  exact List.sublist_flatten_of_mem (List.mem_map_of_mem treeIds hc)

theorem wf_child {i n b cs} (h : wfTree (.mk i n b cs)) {c : Clade} (hc : c ∈ cs) :
    wfTree c :=
  ((wf_mk_iff.mp h).2.sublist (treeIds_sublist_of_mem hc))

theorem eq_of_cid_of_mem {t c d : Clade} (hw : wfTree t) (h1 : c ∈ findElements t)
    (h2 : d ∈ findElements t) (h : c.cid = d.cid) : c = d :=
  List.inj_on_of_nodup_map hw h1 h2 h

/-! ## Structural toolkit: paths and ancestors -/

/-- Parent-child chaining of a path: each element of the list is followed by
one of its children. -/
def childChain (p : List Clade) : Prop :=
  List.Chain' (fun x y => y ∈ x.clades) p

theorem pathToL_some {cs : List Clade} {t : Nat} {q : List Clade}
    (h : pathToL cs t = some q) : ∃ c ∈ cs, pathTo c t = some q := by
  induction cs with
  | nil => simp [pathToL] at h
  | cons c cs ih =>
    rw [pathToL] at h
    split at h
    · refine ⟨c, List.mem_cons_self _ _, ?_⟩
      rw [‹pathTo c t = some _›]
      exact h
    · obtain ⟨d, hd, hp⟩ := ih h
      exact ⟨d, List.mem_cons_of_mem _ hd, hp⟩

theorem pathTo_shape {c : Clade} {t : Nat} {p : List Clade} (h : pathTo c t = some p) :
    ∃ q, p = c :: q := by
  cases c with
  | mk i n b cs =>
    rw [pathTo] at h
    split at h
    · simp only [Option.some.injEq] at h
      exact ⟨[], h.symm⟩
    · cases hq : pathToL cs t with
      | none => rw [hq] at h; simp at h
      | some q =>
        rw [hq] at h
        simp only [Option.map_some', Option.some.injEq] at h
        exact ⟨q, h.symm⟩

theorem pathTo_mem_elements {c : Clade} {t : Nat} {p : List Clade}
    (h : pathTo c t = some p) : ∀ x ∈ p, x ∈ findElements c := by
  induction c generalizing p with
  | h i n b cs ih =>
    rw [pathTo] at h
    split at h
    · simp only [Option.some.injEq] at h
      subst h
      intro x hx
      rw [List.mem_singleton] at hx
      subst hx
      exact self_mem_findElements _
    · cases hq : pathToL cs t with
      | none => rw [hq] at h; simp at h
      | some q =>
        rw [hq] at h
        simp only [Option.map_some', Option.some.injEq] at h
        subst h
        obtain ⟨c', hc', hp⟩ := pathToL_some hq
        intro x hx
        rcases List.mem_cons.mp hx with rfl | hx
        · exact self_mem_findElements _
        · exact mem_findElements_mk.mpr (Or.inr ⟨c', hc', ih c' hc' hp x hx⟩)

theorem pathTo_chain {c : Clade} {t : Nat} {p : List Clade}
    (h : pathTo c t = some p) : childChain p := by
  induction c generalizing p with
  | h i n b cs ih =>
    rw [pathTo] at h
    split at h
    · simp only [Option.some.injEq] at h
      subst h
      exact List.chain'_singleton _
    · cases hq : pathToL cs t with
      | none => rw [hq] at h; simp at h
      | some q =>
        rw [hq] at h
        simp only [Option.map_some', Option.some.injEq] at h
        subst h
        obtain ⟨c', hc', hp⟩ := pathToL_some hq
        obtain ⟨q', rfl⟩ := pathTo_shape hp
        refine List.chain'_cons'.mpr ⟨?_, ih c' hc' hp⟩
        intro y hy
        simp only [List.head?_cons, Option.mem_def, Option.some.injEq] at hy
        subst hy
        simpa using hc'

theorem pathTo_last {c : Clade} {t : Nat} {p : List Clade}
    (h : pathTo c t = some p) : ∃ d, p.getLast? = some d ∧ d.cid = t := by
  induction c generalizing p with
  | h i n b cs ih =>
    rw [pathTo] at h
    split at h
    · simp only [Option.some.injEq] at h
      subst h
      exact ⟨_, rfl, by simpa using ‹i = t›⟩
    · cases hq : pathToL cs t with
      | none => rw [hq] at h; simp at h
      | some q =>
        rw [hq] at h
        simp only [Option.map_some', Option.some.injEq] at h
        subst h
        obtain ⟨c', hc', hp⟩ := pathToL_some hq
        obtain ⟨d, hd, hdt⟩ := ih c' hc' hp
        obtain ⟨q', rfl⟩ := pathTo_shape hp
        exact ⟨d, by rw [List.getLast?_cons_cons]; exact hd, hdt⟩

theorem child_mem_findElements {x y : Clade} (h : y ∈ x.clades) : y ∈ findElements x := by
  cases x with
  | mk i n b cs => exact mem_findElements_mk.mpr (Or.inr ⟨y, by simpa using h, self_mem_findElements y⟩)

theorem chain_last_mem : ∀ {q : List Clade} {x d : Clade}, childChain (x :: q) →
    (x :: q).getLast? = some d → d ∈ findElements x := by
  intro q
  induction q with
  | nil =>
    intro x d _ hd
    simp only [List.getLast?_singleton, Option.some.injEq] at hd
    subst hd
    exact self_mem_findElements x
  | cons y q' ih =>
    intro x d hc hd
    rw [List.getLast?_cons_cons] at hd
    have hcy : y ∈ x.clades ∧ childChain (y :: q') := by
      rw [childChain, List.chain'_cons'] at hc
      exact ⟨by simpa using hc.1 y rfl, hc.2⟩
    exact findElements_trans (child_mem_findElements hcy.1) (ih hcy.2 hd)

theorem chain_dropLast_below : ∀ {p : List Clade} {x d : Clade}, childChain p →
    x ∈ p.dropLast → p.getLast? = some d → ∃ y ∈ x.clades, d ∈ findElements y := by
  intro p
  induction p with
  | nil => intro x d _ hx _; simp at hx
  | cons a q ih =>
    intro x d hc hx hd
    cases q with
    | nil => simp at hx
    | cons b q' =>
      rw [List.dropLast_cons₂, List.mem_cons] at hx
      have hcb : b ∈ a.clades ∧ childChain (b :: q') := by
        rw [childChain, List.chain'_cons'] at hc
        exact ⟨by simpa using hc.1 b rfl, hc.2⟩
      rw [List.getLast?_cons_cons] at hd
      rcases hx with rfl | hx
      · exact ⟨b, hcb.1, chain_last_mem hcb.2 hd⟩
      · exact ih hcb.2 hx hd

theorem chain_penult : ∀ {p : List Clade} {pr : Clade}, childChain p →
    p.dropLast.getLast? = some pr → ∃ d, p.getLast? = some d ∧ d ∈ pr.clades := by
  intro p
  induction p with
  | nil => intro pr _ h; simp at h
  | cons a q ih =>
    intro pr hc hpr
    cases q with
    | nil => simp at hpr
    | cons b q' =>
      have hcb : b ∈ a.clades ∧ childChain (b :: q') := by
        rw [childChain, List.chain'_cons'] at hc
        exact ⟨by simpa using hc.1 b rfl, hc.2⟩
      rw [List.getLast?_cons_cons]
      cases q' with
      | nil =>
        simp only [List.dropLast_cons₂, List.dropLast_single, List.getLast?_singleton,
          Option.some.injEq] at hpr
        subst hpr
        exact ⟨b, rfl, hcb.1⟩
      | cons e q'' =>
        rw [List.dropLast_cons₂, List.dropLast_cons₂, List.getLast?_cons_cons,
          ← List.dropLast_cons₂] at hpr
        exact ih hcb.2 hpr

theorem getParents_sub {c : Clade} {t : Nat} : ∀ x ∈ getParents c t, x ∈ findElements c := by
  intro x hx
  unfold getParents at hx
  split at hx
  · rw [List.mem_reverse] at hx
    exact pathTo_mem_elements ‹pathTo c t = some _› x ((List.dropLast_sublist _).subset hx)
  · simp at hx

theorem getParents_below {c : Clade} {t : Nat} {x : Clade} (h : x ∈ getParents c t) :
    ∃ d, d ∈ findElements x ∧ d.cid = t ∧ sizeOf d < sizeOf x := by
  unfold getParents at h
  split at h
  · rename_i p hp
    rw [List.mem_reverse] at h
    obtain ⟨d, hd, hdt⟩ := pathTo_last hp
    obtain ⟨y, hy, hdy⟩ := chain_dropLast_below (pathTo_chain hp) h hd
    have h1 : sizeOf d ≤ sizeOf y := by
      rcases sizeOf_lt_of_mem_findElements hdy with rfl | hlt
      · exact le_refl _
      · exact le_of_lt hlt
    have h2 : sizeOf y < sizeOf x := by
      cases x with
      | mk i n b cs =>
        have := List.sizeOf_lt_of_mem (by simpa using hy : y ∈ cs)
        simp only [Clade.mk.sizeOf_spec]
        omega
    exact ⟨d, findElements_trans (child_mem_findElements hy) hdy, hdt, lt_of_le_of_lt h1 h2⟩
  · simp at h

theorem getParents_hasChild {c : Clade} {t : Nat} {x : Clade} (h : x ∈ getParents c t) :
    x.clades ≠ [] := by
  unfold getParents at h
  split at h
  · rename_i p hp
    rw [List.mem_reverse] at h
    obtain ⟨d, hd, hdt⟩ := pathTo_last hp
    obtain ⟨y, hy, _⟩ := chain_dropLast_below (pathTo_chain hp) h hd
    exact fun he => by rw [he] at hy; simp at hy
  · simp at h

theorem parentOfId_spec {c : Clade} {t : Nat} {pr : Clade}
    (h : parentOfId c t = some pr) :
    pr ∈ findElements c ∧ ∃ d, d ∈ pr.clades ∧ d.cid = t := by
  unfold parentOfId at h
  have hmem : pr ∈ getParents c t := by
    cases hg : getParents c t with
    | nil => rw [hg] at h; simp at h
    | cons a l =>
      rw [hg] at h
      simp only [List.head?_cons, Option.some.injEq] at h
      subst h
      exact List.mem_cons_self _ _
  refine ⟨getParents_sub pr hmem, ?_⟩
  unfold getParents at h
  split at h
  · rename_i p hp
    rw [List.head?_reverse] at h
    obtain ⟨d, hd, hdc⟩ := chain_penult (pathTo_chain hp) h
    obtain ⟨d', hd', hdt⟩ := pathTo_last hp
    rw [hd] at hd'
    simp only [Option.some.injEq] at hd'
    subst hd'
    exact ⟨d, hdc, hdt⟩
  · simp at h

/-! ## Structural toolkit: common ancestor -/

theorem caGo_mem : ∀ (l : List Clade) (cur : Clade) (xs : List (List Clade)),
    caGo cur l xs ∈ cur :: l
  | [], cur, xs => by rw [caGo]; exact List.mem_cons_self _ _
  | x :: l', cur, xs => by
    rw [caGo]
    split
    · exact List.mem_cons_of_mem _ (caGo_mem l' x (xs.map (·.tail)))
    · exact List.mem_cons_self _ _

theorem caGo_leaf : ∀ {l : List Clade} {cur : Clade} {xs : List (List Clade)},
    childChain (cur :: l) → (caGo cur l xs).clades = [] →
    (cur :: l).getLast? = some (caGo cur l xs) := by
  intro l
  induction l with
  | nil => intro cur xs _ _; rw [caGo]; rfl
  | cons x xs' ih =>
    intro cur xs hc hl
    have hcx : x ∈ cur.clades ∧ childChain (x :: xs') := by
      rw [childChain, List.chain'_cons'] at hc
      exact ⟨by simpa using hc.1 x rfl, hc.2⟩
    rw [caGo] at hl ⊢
    split at hl
    · rw [List.getLast?_cons_cons]
      rename_i hcond
      rw [if_pos hcond]
      exact ih hcx.2 hl
    · exfalso
      rw [hl] at hcx
      simp at hcx

theorem commonAncestor_elim {root : Clade} {ts : List Nat} {g : Clade}
    (h : commonAncestor root ts = some g) :
    ∃ t0 ∈ ts, ∃ p q, pathTo root t0 = some p ∧ p = root :: q ∧
      ∃ xs, g = caGo root q xs := by
  unfold commonAncestor at h
  cases ts with
  | nil => simp at h
  | cons t0 ts' =>
    rw [List.mapM_cons] at h
    cases hp : pathTo root t0 with
    | none => rw [hp] at h; simp [Option.bind] at h
    | some p =>
      rw [hp] at h
      cases hq : ts'.mapM (pathTo root) with
      | none => rw [hq] at h; simp [Option.bind] at h
      | some qs =>
        rw [hq] at h
        simp only [Option.bind_eq_bind, Option.some_bind, Option.pure_def,
          Option.some.injEq] at h
        obtain ⟨q, rfl⟩ := pathTo_shape hp
        refine ⟨t0, List.mem_cons_self _ _, root :: q, q, hp, rfl, qs.map (·.tail), ?_⟩
        rw [← h]
        rfl

theorem commonAncestor_mem {root : Clade} {ts : List Nat} {g : Clade}
    (h : commonAncestor root ts = some g) : g ∈ findElements root := by
  obtain ⟨t0, _, p, q, hp, rfl, xs, rfl⟩ := commonAncestor_elim h
  exact pathTo_mem_elements hp _ (caGo_mem q root xs)

theorem commonAncestor_leaf {root : Clade} {ts : List Nat} {g : Clade}
    (h : commonAncestor root ts = some g) (hl : g.clades = []) :
    ∃ t0 ∈ ts, g.cid = t0 := by
  obtain ⟨t0, ht0, p, q, hp, rfl, xs, rfl⟩ := commonAncestor_elim h
  have hchain : childChain (root :: q) := pathTo_chain hp
  have hlast := caGo_leaf hchain hl
  obtain ⟨d, hd, hdt⟩ := pathTo_last hp
  rw [hd] at hlast
  simp only [Option.some.injEq] at hlast
  rw [hlast] at hdt
  exact ⟨t0, ht0, hdt⟩

/-! ## Structural toolkit: node replacement -/

theorem perm_append_swap {α : Type} (l ex m : List α) :
    List.Perm (l ++ (ex ++ m)) (ex ++ (l ++ m)) := by
  rw [← List.append_assoc, ← List.append_assoc]
  exact List.Perm.append_right m List.perm_append_comm

theorem replaceNode_not_mem {t : Clade} {xid : Nat} {f : Clade → Clade}
    (h : xid ∉ treeIds t) : replaceNode t xid f = t := by
  induction t with
  | h i n b cs ih =>
    rw [treeIds_def, List.mem_cons] at h
    push_neg at h
    rw [replaceNode_def, if_neg (fun he => h.1 he.symm)]
    congr 1
    have : ∀ c ∈ cs, replaceNode c xid f = c := by
      intro c hc
      refine ih c hc (fun hm => h.2 ?_)
      exact List.mem_flatMap.mpr ⟨c, hc, hm⟩
    rw [List.map_congr_left this, List.map_id']

theorem filter_flatMap_comm {α β : Type} (l : List α) (f : α → List β) (p : β → Bool) :
    (l.flatMap f).filter p = l.flatMap (fun a => (f a).filter p) := by
  induction l with
  | nil => rfl
  | cons a l ih => rw [List.flatMap_cons, List.filter_append, ih, List.flatMap_cons]

theorem obs_replaceNodeL {α : Type} (O : Clade → List α) {p : Clade} {f : Clade → Clade}
    {ex : List α} :
    ∀ cs : List Clade, (cs.flatMap treeIds).Nodup →
      (∃ c ∈ cs, p ∈ findElements c) →
      (∀ c ∈ cs, p ∈ findElements c →
        List.Perm (O (replaceNode c p.cid f)) (ex ++ O c)) →
      List.Perm ((cs.map (fun c => replaceNode c p.cid f)).flatMap O)
        (ex ++ cs.flatMap O) := by
  intro cs
  induction cs with
  | nil => intro _ hex _; simp at hex
  | cons c cs' ih =>
    intro hnd hex hstep
    rw [List.flatMap_cons] at hnd
    have hnd' := List.nodup_append.mp hnd
    rw [List.map_cons, List.flatMap_cons, List.flatMap_cons]
    by_cases hpc : p ∈ findElements c
    · have htail : cs'.map (fun c => replaceNode c p.cid f) = cs' := by
        refine (List.map_congr_left ?_).trans (List.map_id' _)
        intro c' hc'
        refine replaceNode_not_mem (fun hm => ?_)
        exact (hnd'.2.2 (cid_mem_treeIds hpc)) (List.mem_flatMap.mpr ⟨c', hc', hm⟩)
      rw [htail]
      have hh := List.Perm.append_right (cs'.flatMap O)
        (hstep c (List.mem_cons_self _ _) hpc)
      rw [List.append_assoc] at hh
      exact hh
    · obtain ⟨d, hd, hpd⟩ := hex
      have hd' : d ∈ cs' := by
        rcases List.mem_cons.mp hd with rfl | h
        · exact absurd hpd hpc
        · exact h
      have hhead : replaceNode c p.cid f = c := by
        refine replaceNode_not_mem (fun hm => ?_)
        exact (hnd'.2.2 hm) (List.mem_flatMap.mpr ⟨d, hd', cid_mem_treeIds hpd⟩)
      rw [hhead]
      have hperm' := ih hnd'.2.1 ⟨d, hd', hpd⟩
        (fun c' hc' hm => hstep c' (List.mem_cons_of_mem _ hc') hm)
      exact (List.Perm.append_left (O c) hperm').trans (perm_append_swap _ _ _)

/-- Master lemma: an observation that decomposes node-locally is rewritten by
`replaceNode` exactly as it is rewritten at the replaced node. -/
theorem obs_replaceNode {α : Type} (O : Clade → List α)
    (base : Nat → Option String → Option Rat → List Clade → List α)
    (hO : ∀ i n b cs, O (.mk i n b cs) = base i n b cs ++ cs.flatMap O)
    (hbase : ∀ i n b cs g, base i n b (cs.map g) = base i n b cs)
    {p : Clade} {f : Clade → Clade} {ex : List α}
    (hf : List.Perm (O (f p)) (ex ++ O p)) :
    ∀ {t : Clade}, wfTree t → p ∈ findElements t →
      List.Perm (O (replaceNode t p.cid f)) (ex ++ O t) := by
  intro t
  induction t with
  | h i n b cs ih =>
    intro hw hp
    rw [replaceNode_def]
    by_cases hip : i = p.cid
    · rw [if_pos hip]
      have hpt : Clade.mk i n b cs = p :=
        eq_of_cid_of_mem hw (self_mem_findElements _) hp (by simpa using hip)
      rw [hpt]
      exact hf
    · rw [if_neg hip]
      have hchild : ∃ c ∈ cs, p ∈ findElements c := by
        rcases mem_findElements_mk.mp hp with rfl | h
        · simp at hip
        · exact h
      rw [hO, hO, hbase]
      have hinner := obs_replaceNodeL O cs (wf_mk_iff.mp hw).2 hchild
        (fun c hc hm => ih c hc (wf_child hw hc) hm)
      exact (List.Perm.append_left (base i n b cs) hinner).trans (perm_append_swap _ _ _)

theorem treeIds_as_base (i : Nat) (n : Option String) (b : Option Rat) (cs : List Clade) :
    treeIds (.mk i n b cs) = [i] ++ cs.flatMap treeIds := by
  rw [treeIds_def]; rfl

/-- Permutation action of `replaceNode` on the node ids. -/
theorem treeIds_replaceNode {p : Clade} {f : Clade → Clade} {ex : List Nat}
    (hf : List.Perm (treeIds (f p)) (ex ++ treeIds p)) {t : Clade}
    (hw : wfTree t) (hp : p ∈ findElements t) :
    List.Perm (treeIds (replaceNode t p.cid f)) (ex ++ treeIds t) :=
  obs_replaceNode treeIds (fun i _ _ _ => [i]) treeIds_as_base
    (fun _ _ _ _ _ => rfl) hf hw hp

theorem getTerminals_def (i : Nat) (n : Option String) (b : Option Rat) (cs : List Clade) :
    getTerminals (.mk i n b cs) =
      (if cs.isEmpty then [Clade.mk i n b cs] else []) ++
        cs.flatMap getTerminals := by
  unfold getTerminals
  rw [findElements_def, List.filter_cons, filter_flatMap_comm]
  by_cases hcs : cs.isEmpty
  · rw [if_pos (by simpa using hcs), if_pos hcs]; rfl
  · rw [if_neg (by simpa using hcs), if_neg hcs]; rfl

theorem leafData_def (i : Nat) (n : Option String) (b : Option Rat) (cs : List Clade) :
    leafData (.mk i n b cs) =
      (if cs.isEmpty then [(n, b)] else []) ++ cs.flatMap leafData := by
  unfold leafData
  rw [getTerminals_def, List.map_append, List.map_flatMap]
  congr 1
  by_cases hcs : cs.isEmpty
  · rw [if_pos hcs, if_pos hcs]; rfl
  · rw [if_neg hcs, if_neg hcs]; rfl

theorem leafData_as_base (i : Nat) (n : Option String) (b : Option Rat) (cs : List Clade) :
    leafData (.mk i n b cs) =
      (fun (_ : Nat) (n : Option String) (b : Option Rat) (cs : List Clade) =>
        if cs.isEmpty then [(n, b)] else []) i n b cs ++ cs.flatMap leafData :=
  leafData_def i n b cs

/-- Permutation action of `replaceNode` on the leaf observations. -/
theorem leafData_replaceNode {p : Clade} {f : Clade → Clade}
    (hf : List.Perm (leafData (f p)) (leafData p)) {t : Clade}
    (hw : wfTree t) (hp : p ∈ findElements t) :
    List.Perm (leafData (replaceNode t p.cid f)) (leafData t) := by
  have h0 := @obs_replaceNode (Option String × Option Rat) leafData
    (fun _ n b cs => if cs.isEmpty then [(n, b)] else [])
    leafData_as_base
    (fun _ _ _ cs g => by simp [List.isEmpty_iff])
    p f [] (by simpa using hf) t hw hp
  simpa using h0

theorem mem_replaceNode_leaf {p s : Clade} {f : Clade → Clade}
    (hsp : s ≠ p) (hleaf : s.clades = [])
    (hf : s ∈ findElements p → s ∈ findElements (f p)) :
    ∀ {t : Clade}, wfTree t → p ∈ findElements t → s ∈ findElements t →
      s ∈ findElements (replaceNode t p.cid f) := by
  intro t
  induction t with
  | h i n b cs ih =>
    intro hw hp hs
    rw [replaceNode_def]
    by_cases hip : i = p.cid
    · rw [if_pos hip]
      have hpt : Clade.mk i n b cs = p :=
        eq_of_cid_of_mem hw (self_mem_findElements _) hp (by simpa using hip)
      rw [hpt]
      exact hf (hpt ▸ hs)
    · rw [if_neg hip]
      have hchild : ∃ c ∈ cs, p ∈ findElements c := by
        rcases mem_findElements_mk.mp hp with rfl | h
        · simp at hip
        · exact h
      obtain ⟨cp, hcp, hpcp⟩ := hchild
      have hschild : ∃ c ∈ cs, s ∈ findElements c := by
        rcases mem_findElements_mk.mp hs with rfl | h
        · exfalso
          simp only [Clade.clades_mk] at hleaf
          subst hleaf
          rcases mem_findElements_mk.mp hp with rfl | ⟨c, hc, _⟩
          · exact hsp rfl
          · simp at hc
        · exact h
      obtain ⟨c0, hc0, hsc0⟩ := hschild
      by_cases hpc0 : p ∈ findElements c0
      · have hmem := ih c0 hc0 (wf_child hw hc0) hpc0 hsc0
        exact mem_findElements_mk.mpr (Or.inr ⟨replaceNode c0 p.cid f,
          List.mem_map_of_mem _ hc0, hmem⟩)
      · have hne : replaceNode c0 p.cid f = c0 := by
          refine replaceNode_not_mem (fun hm => hpc0 ?_)
          obtain ⟨d, hd, hdc⟩ := List.mem_map.mp hm
          have hd' : d ∈ findElements (Clade.mk i n b cs) :=
            findElements_trans (child_mem_findElements (by simpa using hc0)) hd
          have hdp : d = p := eq_of_cid_of_mem hw hd' hp hdc
          exact hdp ▸ hd
        rw [← hne] at hsc0
        exact mem_findElements_mk.mpr (Or.inr ⟨replaceNode c0 p.cid f,
          List.mem_map_of_mem _ hc0, hsc0⟩)

/-! ## Correspondence map lemmas -/

theorem lookupA_some_entry {m : List (Nat × Nat)} {k v : Nat}
    (h : lookupA m k = some v) : (k, v) ∈ m := by
  unfold lookupA at h
  cases hf : m.find? (fun e => e.1 = k) with
  | none => rw [hf] at h; simp at h
  | some e =>
    rw [hf] at h
    simp only [Option.map_some', Option.some.injEq] at h
    have h1 := List.mem_of_find?_eq_some hf
    have h2 := List.find?_some hf
    simp only [decide_eq_true_eq] at h2
    have he : e = (k, v) := by
      cases e with
      | mk a b => simp only at h2 h; rw [h2, h]
    exact he ▸ h1

theorem lookupA_isSome_of_entry {m : List (Nat × Nat)} {k v : Nat}
    (h : (k, v) ∈ m) : ∃ w, lookupA m k = some w := by
  unfold lookupA
  cases hf : m.find? (fun e => e.1 = k) with
  | none =>
    exfalso
    have := List.find?_eq_none.mp hf (k, v) h
    simp at this
  | some e => exact ⟨e.2, rfl⟩

theorem buildStep_cases (tax : Clade) (acc : List (Nat × Nat) × List (Nat × Nat)) (s : Clade) :
    buildStep tax acc s = acc ∨
      ∃ str x, s.name = some str ∧ findAny tax str = some x ∧
        buildStep tax acc s = ((s.cid, x.cid) :: acc.1, (x.cid, s.cid) :: acc.2) := by
  unfold buildStep
  split
  · rename_i str hname
    split
    · rename_i x hfind
      exact Or.inr ⟨str, x, hname, hfind, rfl⟩
    · exact Or.inl rfl
  · exact Or.inl rfl

theorem foldl_buildStep_mem_t2p {tax : Clade} :
    ∀ (sps : List Clade) (acc : List (Nat × Nat) × List (Nat × Nat)) {e : Nat × Nat},
      e ∈ acc.2 → e ∈ (sps.foldl (buildStep tax) acc).2 := by
  intro sps
  induction sps with
  | nil => intro acc e he; exact he
  | cons s sps' ih =>
    intro acc e he
    rw [List.foldl_cons]
    refine ih _ ?_
    rcases buildStep_cases tax acc s with heq | ⟨str, x, _, _, heq⟩
    · rw [heq]; exact he
    · rw [heq]; exact List.mem_cons_of_mem _ he

theorem foldl_buildStep_t2p_entry {tax : Clade} :
    ∀ (sps : List Clade) (acc : List (Nat × Nat) × List (Nat × Nat)) {y v : Nat},
      (y, v) ∈ (sps.foldl (buildStep tax) acc).2 →
      (y, v) ∈ acc.2 ∨
        ∃ s ∈ sps, ∃ str x, s.name = some str ∧ findAny tax str = some x ∧
          x.cid = y ∧ s.cid = v := by
  intro sps
  induction sps with
  | nil => intro acc y v h; exact Or.inl h
  | cons s sps' ih =>
    intro acc y v h
    rw [List.foldl_cons] at h
    rcases ih _ h with hacc | ⟨s', hs', str, x, h1, h2, h3, h4⟩
    · rcases buildStep_cases tax acc s with heq | ⟨str, x, hn, hf, heq⟩
      · rw [heq] at hacc; exact Or.inl hacc
      · rw [heq] at hacc
        rcases List.mem_cons.mp hacc with he | hacc'
        · right
          refine ⟨s, List.mem_cons_self _ _, str, x, hn, hf, ?_, ?_⟩
          · exact (congrArg Prod.fst he).symm
          · exact (congrArg Prod.snd he).symm
        · exact Or.inl hacc'
    · exact Or.inr ⟨s', List.mem_cons_of_mem _ hs', str, x, h1, h2, h3, h4⟩

theorem foldl_buildStep_pair {tax : Clade} :
    ∀ (sps : List Clade) (acc : List (Nat × Nat) × List (Nat × Nat)),
      (∀ k x, (k, x) ∈ acc.1 → ∃ v, (x, v) ∈ acc.2) →
      ∀ k x, (k, x) ∈ (sps.foldl (buildStep tax) acc).1 →
        ∃ v, (x, v) ∈ (sps.foldl (buildStep tax) acc).2 := by
  intro sps
  induction sps with
  | nil => intro acc hacc k x h; exact hacc k x h
  | cons s sps' ih =>
    intro acc hacc k x h
    rw [List.foldl_cons] at h ⊢
    refine ih _ ?_ k x h
    intro k' x' h'
    rcases buildStep_cases tax acc s with heq | ⟨str, y, hn, hf, heq⟩
    · rw [heq] at h' ⊢; exact hacc k' x' h'
    · rw [heq] at h' ⊢
      rcases List.mem_cons.mp h' with he | h''
      · have hx' : x' = y.cid := congrArg Prod.snd he
        subst hx'
        exact ⟨s.cid, List.mem_cons_self _ _⟩
      · obtain ⟨v, hv⟩ := hacc k' x' h''
        exact ⟨v, List.mem_cons_of_mem _ hv⟩

theorem buildMaps_pair {tax : Clade} {sps : List Clade} {k x : Nat}
    (h : (k, x) ∈ (buildMaps tax sps).1) : ∃ v, (x, v) ∈ (buildMaps tax sps).2 :=
  foldl_buildStep_pair sps ([], []) (by intro k' x' h'; simp at h') k x h

theorem buildMaps_t2p_entry {tax : Clade} {sps : List Clade} {y v : Nat}
    (h : (y, v) ∈ (buildMaps tax sps).2) :
    ∃ s ∈ sps, ∃ str x, s.name = some str ∧ findAny tax str = some x ∧
      x.cid = y ∧ s.cid = v := by
  rcases foldl_buildStep_t2p_entry sps ([], []) h with hacc | h'
  · simp at hacc
  · exact h'

theorem fellows_mem {t2p : List (Nat × Nat)} {a xc : Clade} {w : Nat}
    (hx : xc ∈ findElements a) (hl : lookupA t2p xc.cid = some w) :
    w ∈ fellowsOf t2p a := by
  unfold fellowsOf
  exact List.mem_filterMap.mpr ⟨xc, hx, hl⟩

/-! ## Claim C6: non-emptiness of the projected fellows -/

/-- C6 (amended): for every mapped phylogeny leaf and every taxonomy ancestor
of its counterpart, the projected fellows set contains the phylogeny image of
the counterpart recorded in the taxonomy-to-phylogeny map — which is the leaf
itself whenever distinct mapped leaves have distinct counterpart lookups —
so it is non-empty and `common_ancestor` is never invoked on an empty set by
the propagation engine. -/
theorem claim_c6 :
    ∀ phy tax : Clade, ∀ r : Option String, ∀ v x : Nat, ∀ a : Clade,
      lookupA (buildMaps (pruneTax (convertLabels tax) r)
          (speciesOf (convertLabels phy))).1 v = some x →
      a ∈ getParents (pruneTax (convertLabels tax) r) x →
      fellowsOf (buildMaps (pruneTax (convertLabels tax) r)
          (speciesOf (convertLabels phy))).2 a ≠ [] := by
  intro phy tax r v x a hv ha
  obtain ⟨w, hw⟩ := buildMaps_pair (lookupA_some_entry hv)
  obtain ⟨w', hw'⟩ := lookupA_isSome_of_entry hw
  obtain ⟨d, hd, hdx, _⟩ := getParents_below ha
  have hmem : w' ∈ fellowsOf (buildMaps (pruneTax (convertLabels tax) r)
      (speciesOf (convertLabels phy))).2 a :=
    fellows_mem hd (by rw [hdx]; exact hw')
  exact List.ne_nil_of_mem hmem

/-- Witness for C6 at a concrete mapped leaf and ancestor. -/
theorem claim_c6_witness :
    (lookupA (buildMaps (pruneTax (convertLabels (Clade.mk 10 (some "G") none
          [.mk 11 (some "Xa") none []])) none)
        (speciesOf (convertLabels (Clade.mk 0 none none
          [.mk 1 (some "Xa") (some 1) [], .mk 2 (some "Xa") (some 1) []])))).1 1 = some 11 ∧
      (Clade.mk 10 (some "G") none [.mk 11 (some "Xa") none []]) ∈
        getParents (pruneTax (convertLabels (Clade.mk 10 (some "G") none
          [.mk 11 (some "Xa") none []])) none) 11) ∧
    fellowsOf (buildMaps (pruneTax (convertLabels (Clade.mk 10 (some "G") none
          [.mk 11 (some "Xa") none []])) none)
        (speciesOf (convertLabels (Clade.mk 0 none none
          [.mk 1 (some "Xa") (some 1) [], .mk 2 (some "Xa") (some 1) []])))).2
      (Clade.mk 10 (some "G") none [.mk 11 (some "Xa") none []]) ≠ [] :=
  ⟨⟨by decide, by decide⟩,
    claim_c6 (Clade.mk 0 none none [.mk 1 (some "Xa") (some 1) [], .mk 2 (some "Xa") (some 1) []])
      (Clade.mk 10 (some "G") none [.mk 11 (some "Xa") none []]) none 1 11
      (Clade.mk 10 (some "G") none [.mk 11 (some "Xa") none []])
      (by decide) (by decide)⟩

/-- Counterexample to C6 as stated: with two phylogeny leaves of the same
name, both map to the same taxonomy node, the taxonomy-to-phylogeny map
retains only the later leaf, and the projected fellows set of the first
leaf's ancestor does not contain that first leaf itself (it is nevertheless
non-empty). -/
theorem claim_c6_counterexample :
    lookupA (buildMaps (pruneTax (convertLabels (Clade.mk 10 (some "G") none
          [.mk 11 (some "Xa") none []])) none)
        (speciesOf (convertLabels (Clade.mk 0 none none
          [.mk 1 (some "Xa") (some 1) [], .mk 2 (some "Xa") (some 1) []])))).1 1 = some 11 ∧
    (Clade.mk 10 (some "G") none [.mk 11 (some "Xa") none []]) ∈
      getParents (pruneTax (convertLabels (Clade.mk 10 (some "G") none
        [.mk 11 (some "Xa") none []])) none) 11 ∧
    (1 : Nat) ∉ fellowsOf (buildMaps (pruneTax (convertLabels (Clade.mk 10 (some "G") none
          [.mk 11 (some "Xa") none []])) none)
        (speciesOf (convertLabels (Clade.mk 0 none none
          [.mk 1 (some "Xa") (some 1) [], .mk 2 (some "Xa") (some 1) []])))).2
      (Clade.mk 10 (some "G") none [.mk 11 (some "Xa") none []]) := by
  refine ⟨by decide, by decide, by decide⟩

/-! ## Surgery shape lemmas -/

theorem wf_mem {t c : Clade} (hw : wfTree t) (hc : c ∈ findElements t) : wfTree c := by
  induction t with
  | h i n b cs ih =>
    rcases mem_findElements_mk.mp hc with rfl | ⟨d, hd, hcd⟩
    · exact hw
    · exact ih d hd (wf_child hw hd) hcd

theorem zeroWalk_mem (gr : Clade) (parents : List Clade) :
    zeroWalk gr parents ∈ gr :: parents := by
  unfold zeroWalk
  have hgen : ∀ (l : List Clade) (g : Clade), l.foldl (fun _ x => x) g ∈ g :: l := by
    intro l
    induction l with
    | nil => intro g; exact List.mem_cons_self _ _
    | cons x l' ih =>
      intro g
      rw [List.foldl_cons]
      rcases List.mem_cons.mp (ih x) with he | hm
      · rw [he]; exact List.mem_cons_of_mem _ (List.mem_cons_self _ _)
      · exact List.mem_cons_of_mem _ (List.mem_cons_of_mem _ hm)
  rcases List.mem_cons.mp (hgen (zeroChain parents) gr) with he | hm
  · rw [he]; exact List.mem_cons_self _ _
  · exact List.mem_cons_of_mem _ (List.takeWhile_subset _ hm)

/-- The node ids of the branch-1 wrap of `x`'s children under a fresh node. -/
theorem branch1_wrap_ids (x : Clade) (k : Nat) (nm : Option String) (bl : Option Rat) :
    List.Perm
      (treeIds (.mk x.cid x.name x.branch_length [.mk k nm bl x.clades]))
      (k :: treeIds x) := by
  cases x with
  | mk i n b cs =>
    simp only [Clade.cid_mk, Clade.name_mk, Clade.branch_length_mk, Clade.clades_mk]
    rw [treeIds_def, treeIds_def, List.flatMap_cons, treeIds_def, List.flatMap_nil,
      List.append_nil]
    exact List.Perm.swap k i _

/-- The leaf observations of the branch-1 wrap, for an internal `x`. -/
theorem branch1_wrap_leafData (x : Clade) (k : Nat) (nm : Option String) (bl : Option Rat)
    (hx : x.clades ≠ []) :
    leafData (.mk x.cid x.name x.branch_length [.mk k nm bl x.clades]) = leafData x := by
  cases x with
  | mk i n b cs =>
    simp only [Clade.cid_mk, Clade.name_mk, Clade.branch_length_mk, Clade.clades_mk] at hx ⊢
    rw [leafData_def, leafData_def, List.flatMap_cons, leafData_def, List.flatMap_nil,
      List.append_nil]
    have hcs : cs.isEmpty = false := by
      cases cs with
      | nil => exact absurd rfl hx
      | cons c cs' => rfl
    rw [hcs]
    simp

/-- Every element of the branch-1 wrap other than `x` itself comes from `x`'s
own subtree. -/
theorem branch1_wrap_mem {s x : Clade} {k : Nat} {nm : Option String} {bl : Option Rat}
    (hs : s ∈ findElements x) (hne : s ≠ x) :
    s ∈ findElements (.mk x.cid x.name x.branch_length [.mk k nm bl x.clades]) := by
  cases x with
  | mk i n b cs =>
    rcases mem_findElements_mk.mp hs with rfl | ⟨c, hc, hsc⟩
    · exact absurd rfl hne
    · refine mem_findElements_mk.mpr (Or.inr ⟨.mk k nm bl cs, List.mem_singleton.mpr rfl, ?_⟩)
      exact mem_findElements_mk.mpr (Or.inr ⟨c, by simpa using hc, hsc⟩)

theorem eraseP_outer {p outer : Clade} (hw : wfTree p) (ho : outer ∈ p.clades) :
    ∃ l₁ l₂, p.clades = l₁ ++ outer :: l₂ ∧
      p.clades.eraseP (fun c => c.cid = outer.cid) = l₁ ++ l₂ := by
  obtain ⟨a, l₁, l₂, _, hpa, heq, her⟩ :=
    @List.exists_of_eraseP Clade (fun c => decide (c.cid = outer.cid)) p.clades outer ho
      (by simp)
  have hac : a.cid = outer.cid := by simpa using hpa
  have ha_mem : a ∈ p.clades := by
    rw [heq]; exact List.mem_append_right _ (List.mem_cons_self _ _)
  have hao : a = outer :=
    eq_of_cid_of_mem hw (child_mem_findElements ha_mem) (child_mem_findElements ho) hac
  subst hao
  exact ⟨l₁, l₂, heq, her⟩

/-- The node ids of the branch-2 reparenting of `outer` under a fresh node
appended to `p`'s child list. -/
theorem branch2_reparent_ids {p outer : Clade} {k : Nat} {nm : Option String}
    {bl : Option Rat} (hw : wfTree p) (ho : outer ∈ p.clades) :
    List.Perm
      (treeIds (.mk p.cid p.name p.branch_length
        ((p.clades.eraseP (fun c => c.cid = outer.cid)) ++ [.mk k nm bl [outer]])))
      (k :: treeIds p) := by
  obtain ⟨l₁, l₂, hcl, her⟩ := eraseP_outer hw ho
  cases p with
  | mk i n b cs =>
    simp only [Clade.clades_mk] at hcl her
    simp only [Clade.cid_mk, Clade.name_mk, Clade.branch_length_mk, Clade.clades_mk]
    rw [her, hcl]
    simp only [treeIds_def, List.flatMap_append, List.flatMap_cons, List.flatMap_nil,
      List.append_nil]
    rw [← Multiset.coe_eq_coe]
    simp only [← Multiset.cons_coe, ← Multiset.coe_add, List.append_nil,
      ← Multiset.singleton_add]
    abel

/-- The leaf observations of the branch-2 reparenting. -/
theorem branch2_reparent_leafData {p outer : Clade} {k : Nat} {nm : Option String}
    {bl : Option Rat} (hw : wfTree p) (ho : outer ∈ p.clades) :
    List.Perm
      (leafData (.mk p.cid p.name p.branch_length
        ((p.clades.eraseP (fun c => c.cid = outer.cid)) ++ [.mk k nm bl [outer]])))
      (leafData p) := by
  obtain ⟨l₁, l₂, hcl, her⟩ := eraseP_outer hw ho
  cases p with
  | mk i n b cs =>
    simp only [Clade.clades_mk] at hcl her
    simp only [Clade.cid_mk, Clade.name_mk, Clade.branch_length_mk, Clade.clades_mk]
    rw [her, hcl]
    have h1 : ((l₁ ++ l₂) ++ [Clade.mk k nm bl [outer]]).isEmpty = false := by
      cases l₁ ++ l₂ with
      | nil => rfl
      | cons c cs' => rfl
    have h2 : (l₁ ++ outer :: l₂).isEmpty = false := by
      cases l₁ with
      | nil => rfl
      | cons c cs' => rfl
    rw [leafData_def, leafData_def, h1, h2]
    simp only [leafData_def, List.isEmpty_cons, Bool.false_eq_true, if_false,
      List.flatMap_append, List.flatMap_cons, List.flatMap_nil, List.append_nil]
    rw [← Multiset.coe_eq_coe]
    simp only [← Multiset.cons_coe, ← Multiset.coe_add, List.append_nil,
      List.nil_append, ← Multiset.singleton_add]
    abel

/-- Leaves of `p`'s subtree other than `p` itself survive the branch-2
reparenting. -/
theorem branch2_reparent_mem {s p outer : Clade} {k : Nat} {nm : Option String}
    {bl : Option Rat} (hw : wfTree p) (ho : outer ∈ p.clades)
    (hs : s ∈ findElements p) (hne : s ≠ p) :
    s ∈ findElements (.mk p.cid p.name p.branch_length
      ((p.clades.eraseP (fun c => c.cid = outer.cid)) ++ [.mk k nm bl [outer]])) := by
  obtain ⟨l₁, l₂, hcl, her⟩ := eraseP_outer hw ho
  cases p with
  | mk i n b cs =>
    simp only [Clade.clades_mk] at hcl her
    simp only [Clade.cid_mk, Clade.name_mk, Clade.branch_length_mk, Clade.clades_mk, her]
    rcases mem_findElements_mk.mp hs with rfl | ⟨c, hc, hsc⟩
    · exact absurd rfl hne
    · rw [hcl] at hc
      rcases List.mem_append.mp hc with hc1 | hc2
      · exact mem_findElements_mk.mpr (Or.inr ⟨c, List.mem_append_left _
          (List.mem_append_left _ hc1), hsc⟩)
      · rcases List.mem_cons.mp hc2 with rfl | hc3
        · refine mem_findElements_mk.mpr (Or.inr ⟨.mk k nm bl [c],
            List.mem_append_right _ (List.mem_singleton.mpr rfl), ?_⟩)
          exact mem_findElements_mk.mpr (Or.inr ⟨c, List.mem_singleton.mpr rfl, hsc⟩)
        · exact mem_findElements_mk.mpr (Or.inr ⟨c, List.mem_append_left _
            (List.mem_append_right _ hc3), hsc⟩)

/-! ## Claim C4: surgery, nesting branch -/

/-- C4: when an element of the co-located zero-length label chain (`old_otus`,
nearest first, headed by `group_root`'s own taxonomy counterpart) is found at
position `n` to be a taxonomy ancestor of the new label `a`, surgery walks to
that chain position `x`, creates exactly one new node named `a.name` with
zero branch length carrying all of `x`'s current children, and attaches that
new node as the sole child of `x`; the tree gains exactly the one fresh node
id. -/
theorem claim_c4 :
    ∀ (tax a gr : Clade) (st : EngineSt) (n : Nat) (x : Clade),
      (oldOtus tax gr (getParents st.tree gr.cid)).findIdx?
          (otuMatch ((getParents tax a.cid).map Clade.cid)) = some n →
      (gr :: getParents st.tree gr.cid).get? n = some x →
      (surgery tax a gr st =
        .ok ⟨replaceNode st.tree x.cid (fun y =>
              .mk y.cid y.name y.branch_length [.mk st.ctr a.name (some 0) y.clades]),
            st.done, st.ctr + 1⟩) ∧
      (wfTree st.tree → gr ∈ findElements st.tree →
        List.Perm
          (treeIds (replaceNode st.tree x.cid (fun y =>
            .mk y.cid y.name y.branch_length [.mk st.ctr a.name (some 0) y.clades])))
          (st.ctr :: treeIds st.tree)) := by
  intro tax a gr st n x hmatch hget
  constructor
  · simp only [surgery, hmatch, hget]
  · intro hw hgr
    have hx : x ∈ findElements st.tree := by
      rcases List.mem_cons.mp (List.get?_mem hget) with rfl | hm
      · exact hgr
      · exact getParents_sub x hm
    have h := @treeIds_replaceNode x
      (fun y => Clade.mk y.cid y.name y.branch_length
        [Clade.mk st.ctr a.name (some 0) y.clades])
      [st.ctr] (by simpa using branch1_wrap_ids x st.ctr a.name (some 0)) st.tree hw hx
    simpa using h

/-- Witness for C4: a concrete conflict in which `old_otus[0]` (a homonym of
the group root's name placed above the new label in the taxonomy) matches,
so the new node is inserted below the group root. -/
theorem claim_c4_witness :
    ((oldOtus (Clade.mk 20 (some "X") none [.mk 21 (some "A") none []])
          (Clade.mk 1 (some "X") (some 1) [])
          (getParents (Clade.mk 0 (some "R") none [.mk 1 (some "X") (some 1) []]) 1)).findIdx?
        (otuMatch ((getParents (Clade.mk 20 (some "X") none [.mk 21 (some "A") none []])
          21).map Clade.cid)) = some 0 ∧
      (Clade.mk 1 (some "X") (some 1) [] ::
        getParents (Clade.mk 0 (some "R") none [.mk 1 (some "X") (some 1) []]) 1).get? 0 =
        some (Clade.mk 1 (some "X") (some 1) [])) ∧
    surgery (Clade.mk 20 (some "X") none [.mk 21 (some "A") none []])
        (Clade.mk 21 (some "A") none []) (Clade.mk 1 (some "X") (some 1) [])
        ⟨Clade.mk 0 (some "R") none [.mk 1 (some "X") (some 1) []], [], 5⟩ =
      .ok ⟨replaceNode (Clade.mk 0 (some "R") none [.mk 1 (some "X") (some 1) []]) 1
            (fun y => .mk y.cid y.name y.branch_length
              [.mk 5 (some "A") (some 0) y.clades]),
          [], 6⟩ :=
  ⟨⟨by decide, by decide⟩,
    (claim_c4 (Clade.mk 20 (some "X") none [.mk 21 (some "A") none []])
      (Clade.mk 21 (some "A") none []) (Clade.mk 1 (some "X") (some 1) [])
      ⟨Clade.mk 0 (some "R") none [.mk 1 (some "X") (some 1) []], [], 5⟩ 0
      (Clade.mk 1 (some "X") (some 1) []) (by decide) (by decide)).1⟩

/-! ## Claim C5: surgery, outer-placement branch -/

/-- C5: when no element of the co-located label chain is a taxonomy ancestor
of the new label `a`, surgery walks outward past any further zero-length
named ancestors to `outer`; if `outer` is the phylogeny root the new
zero-length node named `a.name` becomes the new tree root with the old tree
as its single child, and otherwise the new node replaces `outer` in its
former parent's child list (removed there, the new node appended) with the
`outer` subtree as its single child; in either case exactly one fresh node id
is introduced. -/
theorem claim_c5 :
    ∀ (tax a gr : Clade) (st : EngineSt) (outer : Clade),
      (oldOtus tax gr (getParents st.tree gr.cid)).findIdx?
          (otuMatch ((getParents tax a.cid).map Clade.cid)) = none →
      zeroWalk gr (getParents st.tree gr.cid) = outer →
      ((outer.cid = st.tree.cid →
        surgery tax a gr st =
          .ok ⟨.mk st.ctr a.name (some 0) [st.tree], st.done, st.ctr + 1⟩ ∧
        treeIds (.mk st.ctr a.name (some 0) [st.tree]) = st.ctr :: treeIds st.tree) ∧
      (∀ p : Clade, outer.cid ≠ st.tree.cid →
        parentOfId st.tree outer.cid = some p →
        surgery tax a gr st =
          .ok ⟨replaceNode st.tree p.cid (fun y =>
                .mk y.cid y.name y.branch_length
                  ((y.clades.eraseP (fun c => c.cid = outer.cid)) ++
                    [.mk st.ctr a.name (some 0) [outer]])),
              st.done, st.ctr + 1⟩ ∧
        (wfTree st.tree → gr ∈ findElements st.tree →
          List.Perm
            (treeIds (replaceNode st.tree p.cid (fun y =>
              .mk y.cid y.name y.branch_length
                ((y.clades.eraseP (fun c => c.cid = outer.cid)) ++
                  [.mk st.ctr a.name (some 0) [outer]]))))
            (st.ctr :: treeIds st.tree)))) := by
  intro tax a gr st outer hmatch houter
  constructor
  · intro hroot
    constructor
    · simp only [surgery, hmatch, houter]
      rw [if_pos hroot]
    · rw [treeIds_def, List.flatMap_cons, List.flatMap_nil, List.append_nil]
  · intro p hnroot hpar
    constructor
    · simp only [surgery, hmatch, houter]
      rw [if_neg hnroot, hpar]
    · intro hw hgr
      have houter_mem : outer ∈ findElements st.tree := by
        rcases List.mem_cons.mp (houter ▸ zeroWalk_mem gr (getParents st.tree gr.cid))
          with rfl | hm
        · exact hgr
        · exact getParents_sub outer hm
      obtain ⟨hp_mem, d, hd, hdc⟩ := parentOfId_spec hpar
      have hdo : d = outer :=
        eq_of_cid_of_mem hw (findElements_trans hp_mem (child_mem_findElements hd))
          houter_mem hdc
      have ho : outer ∈ p.clades := hdo ▸ hd
      have hwp : wfTree p := wf_mem hw hp_mem
      have h := @treeIds_replaceNode p
        (fun y => Clade.mk y.cid y.name y.branch_length
          ((y.clades.eraseP (fun c => c.cid = outer.cid)) ++
            [Clade.mk st.ctr a.name (some 0) [outer]]))
        [st.ctr] (by simpa using branch2_reparent_ids hwp ho) st.tree hw hp_mem
      simpa using h

/-- Witness for C5 exercising both the new-root case (the walk reaches the
phylogeny root) and the reparent case (the walk stops below the root). -/
theorem claim_c5_witness :
    (surgery (Clade.mk 10 (some "G") none [.mk 11 (some "Xa") none []])
        (Clade.mk 10 (some "G") none [.mk 11 (some "Xa") none []])
        (Clade.mk 0 (some "Xa") (some 1) [])
        ⟨Clade.mk 0 (some "Xa") (some 1) [], [], 7⟩ =
      .ok ⟨.mk 7 (some "G") (some 0) [.mk 0 (some "Xa") (some 1) []], [], 8⟩) ∧
    (surgery (Clade.mk 10 (some "G") none [.mk 11 (some "Xa") none []])
        (Clade.mk 10 (some "G") none [.mk 11 (some "Xa") none []])
        (Clade.mk 2 (some "Xa") (some 1) [])
        ⟨Clade.mk 0 none none [.mk 1 (some "Q") (some 1) [], .mk 2 (some "Xa") (some 1) []],
          [], 7⟩ =
      .ok ⟨replaceNode
            (Clade.mk 0 none none [.mk 1 (some "Q") (some 1) [], .mk 2 (some "Xa") (some 1) []])
            0
            (fun y => .mk y.cid y.name y.branch_length
              ((y.clades.eraseP (fun c => c.cid =
                  (Clade.mk 2 (some "Xa") (some 1) []).cid)) ++
                [.mk 7 (some "G") (some 0) [Clade.mk 2 (some "Xa") (some 1) []]])),
          [], 8⟩) := by
  constructor
  · exact ((claim_c5 (Clade.mk 10 (some "G") none [.mk 11 (some "Xa") none []])
      (Clade.mk 10 (some "G") none [.mk 11 (some "Xa") none []])
      (Clade.mk 0 (some "Xa") (some 1) [])
      ⟨Clade.mk 0 (some "Xa") (some 1) [], [], 7⟩
      (Clade.mk 0 (some "Xa") (some 1) []) (by decide) (by decide)).1 (by decide)).1
  · exact ((claim_c5 (Clade.mk 10 (some "G") none [.mk 11 (some "Xa") none []])
      (Clade.mk 10 (some "G") none [.mk 11 (some "Xa") none []])
      (Clade.mk 2 (some "Xa") (some 1) [])
      ⟨Clade.mk 0 none none [.mk 1 (some "Q") (some 1) [], .mk 2 (some "Xa") (some 1) []],
        [], 7⟩
      (Clade.mk 2 (some "Xa") (some 1) []) (by decide) (by decide)).2
      (Clade.mk 0 none none [.mk 1 (some "Q") (some 1) [], .mk 2 (some "Xa") (some 1) []])
      (by decide) (by decide)).1

/-! ## Well-formedness preservation -/

theorem treeIds_convertLabels (t : Clade) : treeIds (convertLabels t) = treeIds t := by
  unfold treeIds
  rw [findElements_convertLabels, List.map_map]
  refine List.map_congr_left (fun c _ => ?_)
  cases c; rfl

theorem foldl_max_le {l : List Nat} {acc : Nat} : acc ≤ l.foldl max acc := by
  induction l generalizing acc with
  | nil => exact le_refl _
  | cons y l ih => exact le_trans (le_max_left acc y) ih

theorem foldl_max_ge_mem {l : List Nat} {acc x : Nat} (h : x ∈ l) : x ≤ l.foldl max acc := by
  induction l generalizing acc with
  | nil => simp at h
  | cons y l ih =>
    rw [List.foldl_cons]
    rcases List.mem_cons.mp h with rfl | hm
    · exact le_trans (le_max_right acc x) foldl_max_le
    · exact ih hm

theorem mem_le_maxId {t : Clade} {i : Nat} (h : i ∈ treeIds t) : i ≤ maxId t := by
  unfold maxId
  unfold treeIds at h
  rw [← List.foldl_map]
  exact foldl_max_ge_mem h

theorem speciesOf_spec {t : Clade} {s : Clade} (h : s ∈ speciesOf t) :
    s ∈ findElements t ∧ s.clades = [] ∧ truthy s.name = true := by
  unfold speciesOf getTerminals at h
  have h1 := List.mem_filter.mp h
  have h2 := List.mem_filter.mp h1.1
  exact ⟨h2.1, by simpa using h2.2, h1.2⟩

/-- Well-formed engine state: distinct node ids, all below the fresh counter. -/
def WfCtr (st : EngineSt) : Prop :=
  wfTree st.tree ∧ ∀ i ∈ treeIds st.tree, i < st.ctr

theorem wfCtr_of_perm {st : EngineSt} {t' : Clade} (hwc : WfCtr st)
    (hperm : List.Perm (treeIds t') (st.ctr :: treeIds st.tree)) :
    wfTree t' ∧ ∀ i ∈ treeIds t', i < st.ctr + 1 := by
  constructor
  · unfold wfTree
    rw [hperm.nodup_iff, List.nodup_cons]
    exact ⟨fun hm => lt_irrefl _ (hwc.2 _ hm), hwc.1⟩
  · intro i hi
    rcases List.mem_cons.mp (hperm.mem_iff.mp hi) with rfl | hm
    · exact Nat.lt_succ_self _
    · exact Nat.lt_succ_of_lt (hwc.2 _ hm)

theorem surgery_wf {tax a gr : Clade} {st st3 : EngineSt} (hwc : WfCtr st)
    (hgr : gr ∈ findElements st.tree) (h : surgery tax a gr st = .ok st3) :
    WfCtr st3 := by
  simp only [surgery] at h
  split at h
  · split at h
    · rename_i x hget
      simp only [Except.ok.injEq] at h
      subst h
      have hx : x ∈ findElements st.tree := by
        rcases List.mem_cons.mp (List.get?_mem hget) with rfl | hm
        · exact hgr
        · exact getParents_sub x hm
      have hperm := @treeIds_replaceNode x
        (fun y => Clade.mk y.cid y.name y.branch_length
          [Clade.mk st.ctr a.name (some 0) y.clades])
        [st.ctr] (by simpa using branch1_wrap_ids x st.ctr a.name (some 0))
        st.tree hwc.1 hx
      exact wfCtr_of_perm hwc (by simpa using hperm)
    · simp at h
  · split at h
    · simp only [Except.ok.injEq] at h
      subst h
      refine wfCtr_of_perm hwc ?_
      rw [treeIds_def, List.flatMap_cons, List.flatMap_nil, List.append_nil]
    · split at h
      · rename_i p hpar
        simp only [Except.ok.injEq] at h
        subst h
        have houter_mem : zeroWalk gr (getParents st.tree gr.cid) ∈ findElements st.tree := by
          rcases List.mem_cons.mp (zeroWalk_mem gr (getParents st.tree gr.cid)) with he | hm
          · rw [he]; exact hgr
          · exact getParents_sub _ hm
        obtain ⟨hp_mem, d, hd, hdc⟩ := parentOfId_spec hpar
        have hdo : d = zeroWalk gr (getParents st.tree gr.cid) :=
          eq_of_cid_of_mem hwc.1 (findElements_trans hp_mem (child_mem_findElements hd))
            houter_mem hdc
        have ho : zeroWalk gr (getParents st.tree gr.cid) ∈ p.clades := hdo ▸ hd
        have hperm := @treeIds_replaceNode p
          (fun y => Clade.mk y.cid y.name y.branch_length
            ((y.clades.eraseP (fun c => c.cid =
              (zeroWalk gr (getParents st.tree gr.cid)).cid)) ++
              [Clade.mk st.ctr a.name (some 0) [zeroWalk gr (getParents st.tree gr.cid)]]))
          [st.ctr] (by simpa using branch2_reparent_ids (wf_mem hwc.1 hp_mem) ho)
          st.tree hwc.1 hp_mem
        exact wfCtr_of_perm hwc (by simpa using hperm)
      · simp at h
theorem setName_ids_perm {t gr : Clade} (hw : wfTree t) (hgr : gr ∈ findElements t)
    (nm : Option String) :
    List.Perm (treeIds (setName t gr.cid nm)) (treeIds t) := by
  have hperm := @treeIds_replaceNode gr
    (fun y => Clade.mk y.cid nm y.branch_length y.clades) []
    (by
      cases gr with
      | mk i n b cs =>
        have heq : treeIds ((fun y => Clade.mk y.cid nm y.branch_length y.clades)
            (Clade.mk i n b cs)) = treeIds (Clade.mk i n b cs) := by
          simp only [Clade.cid_mk, Clade.branch_length_mk, Clade.clades_mk]
          rw [treeIds_def, treeIds_def]
        rw [heq]
        exact List.Perm.refl _)
    t hw hgr
  simpa [setName] using hperm

theorem ancestorStep_wfCtr {tax : Clade} {t2p : List (Nat × Nat)} {st st2 : EngineSt}
    {a : Clade} (hwc : WfCtr st) (h : ancestorStep tax t2p st a = .ok st2) :
    WfCtr st2 := by
  unfold ancestorStep at h
  split at h
  · simp only [Except.ok.injEq] at h; subst h; exact hwc
  · split at h
    · simp at h
    · rename_i gr hca
      split at h
      · split at h
        · rename_i st3 hs
          simp only [Except.ok.injEq] at h
          subst h
          have hw3 := surgery_wf hwc (commonAncestor_mem hca) hs
          exact ⟨hw3.1, hw3.2⟩
        · simp at h
      · simp only [Except.ok.injEq] at h
        subst h
        refine ⟨?_, ?_⟩
        · unfold wfTree
          rw [(setName_ids_perm hwc.1 (commonAncestor_mem hca) a.name).nodup_iff]
          exact hwc.1
        · intro i hi
          exact hwc.2 i
            ((setName_ids_perm hwc.1 (commonAncestor_mem hca) a.name).mem_iff.mp hi)

theorem ancestorsFold_wfCtr {tax : Clade} {t2p : List (Nat × Nat)} :
    ∀ {l : List Clade} {st st2 : EngineSt},
      l.foldlM (ancestorStep tax t2p) st = .ok st2 → WfCtr st → WfCtr st2 := by
  intro l
  induction l with
  | nil =>
    intro st st2 h hwc
    simp only [List.foldlM_nil] at h
    simp only [pure, Except.pure, Except.ok.injEq] at h
    subst h; exact hwc
  | cons a l ih =>
    intro st st2 h hwc
    rw [List.foldlM_cons] at h
    cases ha : ancestorStep tax t2p st a with
    | error e => rw [ha] at h; simp [bind, Except.bind] at h
    | ok stm =>
      rw [ha] at h
      simp only [bind, Except.bind] at h
      exact ih h (ancestorStep_wfCtr hwc ha)

theorem leafStep_wfCtr {tax : Clade} {p2t t2p : List (Nat × Nat)} {st st2 : EngineSt}
    {sp : Clade} (hwc : WfCtr st) (h : leafStep tax p2t t2p st sp = .ok st2) :
    WfCtr st2 := by
  unfold leafStep at h
  split at h
  · simp only [Except.ok.injEq] at h; subst h; exact hwc
  · split at h
    · simp only [Except.ok.injEq] at h; subst h; exact hwc
    · split at h
      · rename_i st3 hf
        simp only [Except.ok.injEq] at h
        subst h
        have hw3 := ancestorsFold_wfCtr hf hwc
        exact ⟨hw3.1, hw3.2⟩
      · simp at h

theorem leavesFold_wfCtr {tax : Clade} {p2t t2p : List (Nat × Nat)} :
    ∀ {l : List Clade} {st st2 : EngineSt},
      l.foldlM (leafStep tax p2t t2p) st = .ok st2 → WfCtr st → WfCtr st2 := by
  intro l
  induction l with
  | nil =>
    intro st st2 h hwc
    simp only [List.foldlM_nil] at h
    simp only [pure, Except.pure, Except.ok.injEq] at h
    subst h; exact hwc
  | cons sp l ih =>
    intro st st2 h hwc
    rw [List.foldlM_cons] at h
    cases hsp : leafStep tax p2t t2p st sp with
    | error e => rw [hsp] at h; simp [bind, Except.bind] at h
    | ok stm =>
      rw [hsp] at h
      simp only [bind, Except.bind] at h
      exact ih h (leafStep_wfCtr hwc hsp)

theorem labelTree_wf {phy tax : Clade} {r : Option String} {t' : Clade}
    {d : List (Option String)} (hw : wfTree phy) (h : labelTree phy tax r = .ok (t', d)) :
    wfTree t' := by
  simp only [labelTree] at h
  split at h
  · rename_i st hfold
    simp only [Except.ok.injEq, Prod.mk.injEq] at h
    have hwc0 : WfCtr ⟨convertLabels phy, [], maxId (convertLabels phy) + 1⟩ := by
      refine ⟨?_, ?_⟩
      · unfold wfTree
        rw [treeIds_convertLabels]
        exact hw
      · intro i hi
        exact Nat.lt_succ_of_le (mem_le_maxId hi)
    have hwc := leavesFold_wfCtr hfold hwc0
    rw [← h.1]
    exact hwc.1
  · simp at h

/-! ## Claim C1: tree well-formedness through surgery -/

/-- C1: after every tree-surgery operation of a `label_tree` run — and hence
at the end of the run — the phylogeny remains a single rooted acyclic tree
with consistent parent back-references.  In this embedding the phylogeny is
one rooted clade structure, parent queries are served structurally (so a
parent is by construction the node whose child list contains the queried
node — first conjunct), and well-formedness of the arena is the distinctness
of node ids, which makes every node's parent position unique; surgery, the
per-ancestor step and the whole run preserve it, with all ids staying below
the fresh-id counter. -/
theorem claim_c1 :
    (∀ (t : Clade) (x : Nat) (pr : Clade), parentOfId t x = some pr →
      pr ∈ findElements t ∧ ∃ d, d ∈ pr.clades ∧ d.cid = x) ∧
    (∀ (tax a gr : Clade) (st st3 : EngineSt), WfCtr st → gr ∈ findElements st.tree →
      surgery tax a gr st = .ok st3 →
      wfTree st3.tree ∧ ∀ i ∈ treeIds st3.tree, i < st3.ctr) ∧
    (∀ (tax : Clade) (t2p : List (Nat × Nat)) (st st2 : EngineSt) (a : Clade),
      WfCtr st → ancestorStep tax t2p st a = .ok st2 →
      wfTree st2.tree ∧ ∀ i ∈ treeIds st2.tree, i < st2.ctr) ∧
    (∀ (phy tax : Clade) (r : Option String) (t' : Clade) (d : List (Option String)),
      wfTree phy → labelTree phy tax r = .ok (t', d) → wfTree t') :=
  ⟨fun _ _ _ h => parentOfId_spec h,
   fun _ _ _ _ _ hwc hgr hs => surgery_wf hwc hgr hs,
   fun _ _ _ _ _ hwc h => ancestorStep_wfCtr hwc h,
   fun _ _ _ _ _ hw h => labelTree_wf hw h⟩

/-- Witness for C1: a complete concrete run (the spec's Scenario A) whose
input and output trees are both well-formed. -/
theorem claim_c1_witness :
    wfTree (Clade.mk 0 none none
      [.mk 1 none (some 1) [.mk 2 (some "Homo sapiens") (some 1) [],
        .mk 3 (some "Homo erectus") (some 1) []],
      .mk 4 (some "Pan troglodytes") (some 1) []]) ∧
    labelTree
      (Clade.mk 0 none none
        [.mk 1 none (some 1) [.mk 2 (some "Homo sapiens") (some 1) [],
          .mk 3 (some "Homo erectus") (some 1) []],
        .mk 4 (some "Pan troglodytes") (some 1) []])
      (Clade.mk 10 (some "Hominidae") none
        [.mk 11 (some "Homo") none [.mk 12 (some "Homo sapiens") none [],
          .mk 13 (some "Homo erectus") none []],
        .mk 14 (some "Pan troglodytes") none []]) none =
      .ok (Clade.mk 0 (some "Hominidae") none
        [.mk 1 (some "Homo") (some 1) [.mk 2 (some "Homo sapiens") (some 1) [],
          .mk 3 (some "Homo erectus") (some 1) []],
        .mk 4 (some "Pan troglodytes") (some 1) []],
        [some "Homo", some "Hominidae", some "Homo sapiens", some "Homo erectus",
          some "Pan troglodytes"]) ∧
    wfTree (Clade.mk 0 (some "Hominidae") none
      [.mk 1 (some "Homo") (some 1) [.mk 2 (some "Homo sapiens") (some 1) [],
        .mk 3 (some "Homo erectus") (some 1) []],
      .mk 4 (some "Pan troglodytes") (some 1) []]) := by
  have hrun : labelTree
      (Clade.mk 0 none none
        [.mk 1 none (some 1) [.mk 2 (some "Homo sapiens") (some 1) [],
          .mk 3 (some "Homo erectus") (some 1) []],
        .mk 4 (some "Pan troglodytes") (some 1) []])
      (Clade.mk 10 (some "Hominidae") none
        [.mk 11 (some "Homo") none [.mk 12 (some "Homo sapiens") none [],
          .mk 13 (some "Homo erectus") none []],
        .mk 14 (some "Pan troglodytes") none []]) none =
      .ok (Clade.mk 0 (some "Hominidae") none
        [.mk 1 (some "Homo") (some 1) [.mk 2 (some "Homo sapiens") (some 1) [],
          .mk 3 (some "Homo erectus") (some 1) []],
        .mk 4 (some "Pan troglodytes") (some 1) []],
        [some "Homo", some "Hominidae", some "Homo sapiens", some "Homo erectus",
          some "Pan troglodytes"]) := by rfl
  exact ⟨by decide, hrun,
    claim_c1.2.2.2
      (Clade.mk 0 none none
        [.mk 1 none (some 1) [.mk 2 (some "Homo sapiens") (some 1) [],
          .mk 3 (some "Homo erectus") (some 1) []],
        .mk 4 (some "Pan troglodytes") (some 1) []])
      (Clade.mk 10 (some "Hominidae") none
        [.mk 11 (some "Homo") none [.mk 12 (some "Homo sapiens") none [],
          .mk 13 (some "Homo erectus") none []],
        .mk 14 (some "Pan troglodytes") none []]) none
      (Clade.mk 0 (some "Hominidae") none
        [.mk 1 (some "Homo") (some 1) [.mk 2 (some "Homo sapiens") (some 1) [],
          .mk 3 (some "Homo erectus") (some 1) []],
        .mk 4 (some "Pan troglodytes") (some 1) []])
      [some "Homo", some "Hominidae", some "Homo sapiens", some "Homo erectus",
        some "Pan troglodytes"]
      (by decide) hrun⟩

/-! ## Leaf preservation: engine invariant -/

/-- Invariant of the propagation loop over the phylogeny: well-formed state,
every original named leaf still present as the same subtree, and the leaf
observations a permutation of the initial ones. -/
def EngineInv (p0 : Clade) (st : EngineSt) : Prop :=
  WfCtr st ∧
  (∀ s ∈ speciesOf p0, s ∈ findElements st.tree) ∧
  List.Perm (leafData st.tree) (leafData p0)

theorem findIdx?_ge {α : Type} (p : α → Bool) :
    ∀ (l : List α) (i j : Nat), List.findIdx? p l i = some j → i ≤ j := by
  intro l
  induction l with
  | nil => intro i j h; simp [List.findIdx?] at h
  | cons x xs ih =>
    intro i j h
    rw [List.findIdx?_cons] at h
    split at h
    · simp only [Option.some.injEq] at h; omega
    · exact Nat.le_of_succ_le (ih (i + 1) j h)

theorem findIdx?_zero_head {α : Type} {p : α → Bool} {x : α} {xs : List α}
    (h : List.findIdx? p (x :: xs) = some 0) : p x = true := by
  rw [List.findIdx?_cons] at h
  split at h
  · assumption
  · exact absurd (findIdx?_ge p xs 1 0 h) (by omega)

theorem rename_keep_mem {s x : Clade} {nm : Option String}
    (hs : s ∈ findElements x) (hne : s ≠ x) :
    s ∈ findElements (.mk x.cid nm x.branch_length x.clades) := by
  cases x with
  | mk i n b cs =>
    rcases mem_findElements_mk.mp hs with rfl | ⟨c, hc, hsc⟩
    · exact absurd rfl hne
    · exact mem_findElements_mk.mpr (Or.inr ⟨c, by simpa using hc, hsc⟩)

theorem rename_leafData {x : Clade} {nm : Option String} (hx : x.clades ≠ []) :
    leafData (.mk x.cid nm x.branch_length x.clades) = leafData x := by
  cases x with
  | mk i n b cs =>
    simp only [Clade.cid_mk, Clade.branch_length_mk, Clade.clades_mk] at hx ⊢
    rw [leafData_def, leafData_def]
    have hcs : cs.isEmpty = false := by
      cases cs with
      | nil => exact absurd rfl hx
      | cons c cs' => rfl
    rw [hcs]
    simp

/-- If the common ancestor of the projected fellows is a leaf, it is one of
the original mapped species, still carrying its original (truthy) name. -/
theorem ca_leaf_is_species {p0 tax : Clade} {st : EngineSt} {a gr : Clade}
    (hinv : EngineInv p0 st)
    (hca : commonAncestor st.tree (fellowsOf (buildMaps tax (speciesOf p0)).2 a) = some gr)
    (hleaf : gr.clades = []) :
    ∃ s ∈ speciesOf p0, s = gr ∧ ∃ str, s.name = some str ∧
      ∃ x', findAny tax str = some x' ∧ ∃ xc ∈ findElements a, x'.cid = xc.cid := by
  obtain ⟨t0, ht0, hgrcid⟩ := commonAncestor_leaf hca hleaf
  unfold fellowsOf at ht0
  obtain ⟨xc, hxc, hlook⟩ := List.mem_filterMap.mp ht0
  obtain ⟨s, hs, str, x', hname, hfind, hx'cid, hscid⟩ :=
    buildMaps_t2p_entry (lookupA_some_entry hlook)
  have hsmem : s ∈ findElements st.tree := hinv.2.1 s hs
  have hgr_mem : gr ∈ findElements st.tree := commonAncestor_mem hca
  have hsg : s = gr :=
    eq_of_cid_of_mem hinv.1.1 hsmem hgr_mem (by rw [hscid, hgrcid])
  exact ⟨s, hs, hsg, str, hname, x', hfind, xc, hxc, hx'cid⟩

/-- If the common ancestor of the projected fellows is a leaf, its name is
truthy (it is an original species name), so the direct-labeling branch never
renames a leaf. -/
theorem ca_leaf_truthy {p0 tax : Clade} {st : EngineSt} {a gr : Clade}
    (hinv : EngineInv p0 st)
    (hca : commonAncestor st.tree (fellowsOf (buildMaps tax (speciesOf p0)).2 a) = some gr)
    (hleaf : gr.clades = []) : truthy gr.name = true := by
  obtain ⟨s, hs, hsg, _⟩ := ca_leaf_is_species hinv hca hleaf
  rw [← hsg]
  exact (speciesOf_spec hs).2.2

/-- In the nesting branch of surgery, a match at position zero of `old_otus`
is impossible when the group root is a leaf: its counterpart lies inside the
new label's subtree and therefore cannot be one of the label's ancestors. -/
theorem branch1_head_no_match {p0 tax : Clade} {st : EngineSt} {a gr : Clade}
    (hwtax : wfTree tax) (ha : a ∈ findElements tax)
    (hinv : EngineInv p0 st)
    (hca : commonAncestor st.tree (fellowsOf (buildMaps tax (speciesOf p0)).2 a) = some gr)
    (hleaf : gr.clades = []) :
    otuMatch ((getParents tax a.cid).map Clade.cid)
      ((findAnyO tax gr.name).map Clade.cid) = false := by
  obtain ⟨s, hs, hsg, str, hname, x', hfind, xc, hxc, hx'cid⟩ :=
    ca_leaf_is_species hinv hca hleaf
  have hgrname : gr.name = some str := by rw [← hsg]; exact hname
  rw [hgrname]
  show otuMatch _ ((findAny tax str).map Clade.cid) = false
  rw [hfind]
  simp only [Option.map_some']
  unfold otuMatch
  by_contra hcon
  rw [Bool.not_eq_false] at hcon
  have hmem : x'.cid ∈ (getParents tax a.cid).map Clade.cid := by
    simpa [List.contains_iff_exists_mem_beq] using hcon
  obtain ⟨z, hz, hzcid⟩ := List.mem_map.mp hmem
  have hz_mem : z ∈ findElements tax := getParents_sub z hz
  have hx'_mem : x' ∈ findElements tax := findAny_mem hfind
  have hxc_mem : xc ∈ findElements tax := findElements_trans ha hxc
  have hzx : z = x' := eq_of_cid_of_mem hwtax hz_mem hx'_mem hzcid
  have hx'xc : x' = xc := eq_of_cid_of_mem hwtax hx'_mem hxc_mem hx'cid
  obtain ⟨d, hd, hdc, hdlt⟩ := getParents_below hz
  have hd_mem : d ∈ findElements tax := findElements_trans hz_mem hd
  have hda : d = a := eq_of_cid_of_mem hwtax hd_mem ha hdc
  have hsz : sizeOf z ≤ sizeOf a := by
    rw [hzx, hx'xc]
    rcases sizeOf_lt_of_mem_findElements hxc with rfl | hlt
    · exact le_refl _
    · exact le_of_lt hlt
  rw [hda] at hdlt
  omega

/-- Surgery preserves the engine invariant: the tree stays well-formed, all
original species survive as identical subtrees, and the leaf observations
are permuted, not changed. -/
theorem surgery_inv {p0 tax : Clade} {st st3 : EngineSt} {a gr : Clade}
    (hwtax : wfTree tax) (ha : a ∈ findElements tax)
    (hinv : EngineInv p0 st)
    (hca : commonAncestor st.tree (fellowsOf (buildMaps tax (speciesOf p0)).2 a) = some gr)
    (hs : surgery tax a gr st = .ok st3) :
    EngineInv p0 st3 := by
  have hgr : gr ∈ findElements st.tree := commonAncestor_mem hca
  have hwc3 : WfCtr st3 := surgery_wf hinv.1 hgr hs
  refine ⟨hwc3, ?_⟩
  simp only [surgery] at hs
  split at hs
  · rename_i n hmatch
    split at hs
    · rename_i x hget
      simp only [Except.ok.injEq] at hs
      subst hs
      have hxmem : x ∈ findElements st.tree := by
        rcases List.mem_cons.mp (List.get?_mem hget) with rfl | hm
        · exact hgr
        · exact getParents_sub x hm
      have hxint : x.clades ≠ [] := by
        cases n with
        | zero =>
          have hxg : gr = x := by simpa using hget
          subst hxg
          intro hleaf
          have hno := branch1_head_no_match hwtax ha hinv hca hleaf
          unfold oldOtus at hmatch
          have hhead := findIdx?_zero_head hmatch
          rw [hno] at hhead
          exact Bool.noConfusion hhead
        | succ m =>
          have hm : x ∈ getParents st.tree gr.cid := by
            rw [List.get?_cons_succ] at hget
            exact List.get?_mem hget
          exact getParents_hasChild hm
      constructor
      · intro s hsps
        have hsspec := speciesOf_spec hsps
        have hsne : s ≠ x := fun he => hxint (by rw [← he]; exact hsspec.2.1)
        exact mem_replaceNode_leaf hsne hsspec.2.1
          (fun hsp => branch1_wrap_mem hsp hsne) hinv.1.1 hxmem (hinv.2.1 s hsps)
      · have hf : List.Perm
            (leafData ((fun y => Clade.mk y.cid y.name y.branch_length
              [Clade.mk st.ctr a.name (some 0) y.clades]) x)) (leafData x) := by
          dsimp only
          rw [branch1_wrap_leafData x st.ctr a.name (some 0) hxint]
        have hld := @leafData_replaceNode x
          (fun y => Clade.mk y.cid y.name y.branch_length
            [Clade.mk st.ctr a.name (some 0) y.clades]) hf st.tree hinv.1.1 hxmem
        exact hld.trans hinv.2.2
    · simp at hs
  · split at hs
    · simp only [Except.ok.injEq] at hs
      subst hs
      constructor
      · intro s hsps
        exact mem_findElements_mk.mpr
          (Or.inr ⟨st.tree, List.mem_singleton.mpr rfl, hinv.2.1 s hsps⟩)
      · have : leafData (Clade.mk st.ctr a.name (some 0) [st.tree]) = leafData st.tree := by
          rw [leafData_def, List.flatMap_cons, List.flatMap_nil, List.append_nil]
          rfl
        rw [show (⟨Clade.mk st.ctr a.name (some 0) [st.tree], st.done, st.ctr + 1⟩ :
          EngineSt).tree = Clade.mk st.ctr a.name (some 0) [st.tree] from rfl, this]
        exact hinv.2.2
    · split at hs
      · rename_i p hpar
        simp only [Except.ok.injEq] at hs
        subst hs
        have houter_mem : zeroWalk gr (getParents st.tree gr.cid) ∈ findElements st.tree := by
          rcases List.mem_cons.mp (zeroWalk_mem gr (getParents st.tree gr.cid)) with he | hm
          · rw [he]; exact hgr
          · exact getParents_sub _ hm
        obtain ⟨hp_mem, d, hd, hdc⟩ := parentOfId_spec hpar
        have hdo : d = zeroWalk gr (getParents st.tree gr.cid) :=
          eq_of_cid_of_mem hinv.1.1
            (findElements_trans hp_mem (child_mem_findElements hd)) houter_mem hdc
        have ho : zeroWalk gr (getParents st.tree gr.cid) ∈ p.clades := hdo ▸ hd
        have hwp : wfTree p := wf_mem hinv.1.1 hp_mem
        have hpint : p.clades ≠ [] := fun he => by rw [he] at ho; simp at ho
        constructor
        · intro s hsps
          have hsspec := speciesOf_spec hsps
          have hsne : s ≠ p := fun he => hpint (by rw [← he]; exact hsspec.2.1)
          exact mem_replaceNode_leaf hsne hsspec.2.1
            (fun hsp => branch2_reparent_mem hwp ho hsp hsne)
            hinv.1.1 hp_mem (hinv.2.1 s hsps)
        · have hf : List.Perm
              (leafData ((fun y => Clade.mk y.cid y.name y.branch_length
                ((y.clades.eraseP (fun c => c.cid =
                    (zeroWalk gr (getParents st.tree gr.cid)).cid)) ++
                  [Clade.mk st.ctr a.name (some 0)
                    [zeroWalk gr (getParents st.tree gr.cid)]])) p))
              (leafData p) := by
            dsimp only
            exact branch2_reparent_leafData hwp ho
          have hld := @leafData_replaceNode p
            (fun y => Clade.mk y.cid y.name y.branch_length
              ((y.clades.eraseP (fun c => c.cid =
                  (zeroWalk gr (getParents st.tree gr.cid)).cid)) ++
                [Clade.mk st.ctr a.name (some 0)
                  [zeroWalk gr (getParents st.tree gr.cid)]]))
            hf st.tree hinv.1.1 hp_mem
          exact hld.trans hinv.2.2
      · simp at hs

theorem ancestorStep_inv {p0 tax : Clade} {st st2 : EngineSt} {a : Clade}
    (hwtax : wfTree tax) (ha : a ∈ findElements tax)
    (hinv : EngineInv p0 st)
    (h : ancestorStep tax (buildMaps tax (speciesOf p0)).2 st a = .ok st2) :
    EngineInv p0 st2 := by
  unfold ancestorStep at h
  split at h
  · simp only [Except.ok.injEq] at h; subst h; exact hinv
  · split at h
    · simp at h
    · rename_i gr hca
      split at h
      · split at h
        · rename_i st3 hsur
          simp only [Except.ok.injEq] at h
          subst h
          have hinv3 := surgery_inv hwtax ha hinv hca hsur
          exact ⟨⟨hinv3.1.1, hinv3.1.2⟩, hinv3.2.1, hinv3.2.2⟩
        · simp at h
      · rename_i hntruthy
        simp only [Except.ok.injEq] at h
        subst h
        have hgr : gr ∈ findElements st.tree := commonAncestor_mem hca
        have hgrint : gr.clades ≠ [] := by
          intro hleaf
          exact hntruthy (ca_leaf_truthy hinv hca hleaf)
        refine ⟨⟨?_, ?_⟩, ?_, ?_⟩
        · unfold wfTree
          rw [(setName_ids_perm hinv.1.1 hgr a.name).nodup_iff]
          exact hinv.1.1
        · intro i hi
          exact hinv.1.2 i ((setName_ids_perm hinv.1.1 hgr a.name).mem_iff.mp hi)
        · intro s hsps
          have hsspec := speciesOf_spec hsps
          have hsne : s ≠ gr := fun he => hgrint (by rw [← he]; exact hsspec.2.1)
          exact mem_replaceNode_leaf hsne hsspec.2.1
            (fun hsp => rename_keep_mem hsp hsne) hinv.1.1 hgr (hinv.2.1 s hsps)
        · have hf : List.Perm
              (leafData ((fun c => Clade.mk c.cid a.name c.branch_length c.clades) gr))
              (leafData gr) := by
            dsimp only
            rw [rename_leafData hgrint]
          have hld := @leafData_replaceNode gr
            (fun c => Clade.mk c.cid a.name c.branch_length c.clades)
            hf st.tree hinv.1.1 hgr
          exact List.Perm.trans (by simpa [setName] using hld) hinv.2.2

theorem ancestorsFold_inv {p0 tax : Clade} (hwtax : wfTree tax) :
    ∀ {l : List Clade}, (∀ a ∈ l, a ∈ findElements tax) →
      ∀ {st st2 : EngineSt},
        l.foldlM (ancestorStep tax (buildMaps tax (speciesOf p0)).2) st = .ok st2 →
        EngineInv p0 st → EngineInv p0 st2 := by
  intro l
  induction l with
  | nil =>
    intro _ st st2 h hinv
    simp only [List.foldlM_nil] at h
    simp only [pure, Except.pure, Except.ok.injEq] at h
    subst h; exact hinv
  | cons a l ih =>
    intro hmem st st2 h hinv
    rw [List.foldlM_cons] at h
    cases hstep : ancestorStep tax (buildMaps tax (speciesOf p0)).2 st a with
    | error e => rw [hstep] at h; simp [bind, Except.bind] at h
    | ok stm =>
      rw [hstep] at h
      simp only [bind, Except.bind] at h
      exact ih (fun a' ha' => hmem a' (List.mem_cons_of_mem _ ha')) h
        (ancestorStep_inv hwtax (hmem a (List.mem_cons_self _ _)) hinv hstep)

theorem leafStep_inv {p0 tax : Clade} {st st2 : EngineSt} {sp : Clade}
    (hwtax : wfTree tax)
    (h : leafStep tax (buildMaps tax (speciesOf p0)).1
      (buildMaps tax (speciesOf p0)).2 st sp = .ok st2)
    (hinv : EngineInv p0 st) : EngineInv p0 st2 := by
  unfold leafStep at h
  split at h
  · simp only [Except.ok.injEq] at h; subst h; exact hinv
  · split at h
    · simp only [Except.ok.injEq] at h; subst h; exact hinv
    · split at h
      · rename_i tx _ _ st3 hfold
        simp only [Except.ok.injEq] at h
        subst h
        have hinv3 := ancestorsFold_inv hwtax (fun a' ha' => getParents_sub a' ha') hfold hinv
        exact ⟨⟨hinv3.1.1, hinv3.1.2⟩, hinv3.2.1, hinv3.2.2⟩
      · simp at h

theorem leavesFold_inv {p0 tax : Clade} (hwtax : wfTree tax) :
    ∀ {l : List Clade} {st st2 : EngineSt},
      l.foldlM (leafStep tax (buildMaps tax (speciesOf p0)).1
        (buildMaps tax (speciesOf p0)).2) st = .ok st2 →
      EngineInv p0 st → EngineInv p0 st2 := by
  intro l
  induction l with
  | nil =>
    intro st st2 h hinv
    simp only [List.foldlM_nil] at h
    simp only [pure, Except.pure, Except.ok.injEq] at h
    subst h; exact hinv
  | cons sp l ih =>
    intro st st2 h hinv
    rw [List.foldlM_cons] at h
    cases hstep : leafStep tax (buildMaps tax (speciesOf p0)).1
        (buildMaps tax (speciesOf p0)).2 st sp with
    | error e => rw [hstep] at h; simp [bind, Except.bind] at h
    | ok stm =>
      rw [hstep] at h
      simp only [bind, Except.bind] at h
      exact ih h (leafStep_inv hwtax hstep hinv)

theorem wf_pruneTax {tax : Clade} (hw : wfTree tax) (r : Option String) :
    wfTree (pruneTax (convertLabels tax) r) := by
  have hwc : wfTree (convertLabels tax) := by
    unfold wfTree
    rw [treeIds_convertLabels]
    exact hw
  unfold pruneTax
  split
  · exact hwc
  · split
    · exact hwc
    · split
      · rename_i sub hfind
        exact wf_mem hwc (findAny_mem hfind)
      · exact hwc

theorem labelTree_leafPerm {phy tax : Clade} {r : Option String} {t' : Clade}
    {d : List (Option String)} (hwphy : wfTree phy) (hwtax : wfTree tax)
    (h : labelTree phy tax r = .ok (t', d)) :
    List.Perm (leafData t') (leafData (convertLabels phy)) := by
  simp only [labelTree] at h
  split at h
  · rename_i st hfold
    simp only [Except.ok.injEq, Prod.mk.injEq] at h
    have hinv0 : EngineInv (convertLabels phy)
        ⟨convertLabels phy, [], maxId (convertLabels phy) + 1⟩ := by
      refine ⟨⟨?_, ?_⟩, ?_, ?_⟩
      · unfold wfTree
        rw [treeIds_convertLabels]
        exact hwphy
      · intro i hi
        exact Nat.lt_succ_of_le (mem_le_maxId hi)
      · intro s hsps
        exact (speciesOf_spec hsps).1
      · exact List.Perm.refl _
    have hinv := leavesFold_inv (wf_pruneTax hwtax r) hfold hinv0
    rw [← h.1]
    exact hinv.2.2
  · simp at h

theorem clades_isEmpty_convertLabels (c : Clade) :
    (convertLabels c).clades.isEmpty = c.clades.isEmpty := by
  cases c with
  | mk i n b cs =>
    rw [convertLabels_def]
    simp only [Clade.clades_mk]
    cases cs with
    | nil => rfl
    | cons x xs => rfl

theorem getTerminals_convertLabels (t : Clade) :
    getTerminals (convertLabels t) = (getTerminals t).map convertLabels := by
  unfold getTerminals
  rw [findElements_convertLabels, List.filter_map]
  congr 1
  refine List.filter_congr (fun c _ => ?_)
  exact clades_isEmpty_convertLabels c

theorem leafData_convertLabels (t : Clade) :
    leafData (convertLabels t) =
      (getTerminals t).map (fun c => (convertName c.name, c.branch_length)) := by
  unfold leafData
  rw [getTerminals_convertLabels, List.map_map]
  refine List.map_congr_left (fun c _ => ?_)
  cases c; rfl

/-! ## Claim C2: leaf preservation -/

/-- C2 (amended): for any well-formed input pair on which `label_tree`
succeeds, the multiset of (leaf name, branch length) pairs of the resulting
phylogeny is exactly that of the input phylogeny after name normalization
(underscores replaced by spaces); in particular, when no leaf name of the
input phylogeny contains an underscore, the leaf names and branch lengths
are identical before and after the run, so only internal nodes change. -/
theorem claim_c2 :
    ∀ (phy tax : Clade) (r : Option String) (t' : Clade) (d : List (Option String)),
      wfTree phy → wfTree tax → labelTree phy tax r = .ok (t', d) →
      List.Perm (leafData t') (leafData (convertLabels phy)) ∧
      ((∀ c ∈ getTerminals phy, convertName c.name = c.name) →
        List.Perm (leafData t') (leafData phy)) := by
  intro phy tax r t' d hwphy hwtax h
  have h1 := labelTree_leafPerm hwphy hwtax h
  refine ⟨h1, fun hpt => ?_⟩
  have h2 : leafData (convertLabels phy) = leafData phy := by
    rw [leafData_convertLabels]
    unfold leafData
    refine List.map_congr_left (fun c hc => ?_)
    rw [hpt c hc]
  rw [h2] at h1
  exact h1

/-- Counterexample to C2 as stated: normalization renames an underscore leaf
before propagation, so the leaf data of the result differs from that of the
raw input even though the run succeeds. -/
theorem claim_c2_counterexample :
    labelTree
        (Clade.mk 0 none none
          [.mk 1 (some "Homo_sapiens") (some 1) [], .mk 2 (some "Pan") (some 1) []])
        (Clade.mk 10 (some "Homininae") none
          [.mk 11 (some "Homo sapiens") none [], .mk 12 (some "Pan") none []]) none =
      .ok (Clade.mk 0 (some "Homininae") none
          [.mk 1 (some "Homo sapiens") (some 1) [], .mk 2 (some "Pan") (some 1) []],
        [some "Homininae", some "Homo sapiens", some "Pan"]) ∧
    (some "Homo_sapiens", some (1 : Rat)) ∈ leafData
      (Clade.mk 0 none none
        [.mk 1 (some "Homo_sapiens") (some 1) [], .mk 2 (some "Pan") (some 1) []]) ∧
    (some "Homo_sapiens", some (1 : Rat)) ∉ leafData
      (Clade.mk 0 (some "Homininae") none
        [.mk 1 (some "Homo sapiens") (some 1) [], .mk 2 (some "Pan") (some 1) []]) := by
  refine ⟨by rfl, by decide, by decide⟩

/-- Witness for C2: the Scenario A run, whose leaf names contain no
underscores, preserves the leaf data exactly. -/
theorem claim_c2_witness :
    (wfTree (Clade.mk 0 none none
        [.mk 1 none (some 1) [.mk 2 (some "Homo sapiens") (some 1) [],
          .mk 3 (some "Homo erectus") (some 1) []],
        .mk 4 (some "Pan troglodytes") (some 1) []]) ∧
      wfTree (Clade.mk 10 (some "Hominidae") none
        [.mk 11 (some "Homo") none [.mk 12 (some "Homo sapiens") none [],
          .mk 13 (some "Homo erectus") none []],
        .mk 14 (some "Pan troglodytes") none []])) ∧
    List.Perm
      (leafData (Clade.mk 0 (some "Hominidae") none
        [.mk 1 (some "Homo") (some 1) [.mk 2 (some "Homo sapiens") (some 1) [],
          .mk 3 (some "Homo erectus") (some 1) []],
        .mk 4 (some "Pan troglodytes") (some 1) []]))
      (leafData (Clade.mk 0 none none
        [.mk 1 none (some 1) [.mk 2 (some "Homo sapiens") (some 1) [],
          .mk 3 (some "Homo erectus") (some 1) []],
        .mk 4 (some "Pan troglodytes") (some 1) []])) := by
  have hrun : labelTree
      (Clade.mk 0 none none
        [.mk 1 none (some 1) [.mk 2 (some "Homo sapiens") (some 1) [],
          .mk 3 (some "Homo erectus") (some 1) []],
        .mk 4 (some "Pan troglodytes") (some 1) []])
      (Clade.mk 10 (some "Hominidae") none
        [.mk 11 (some "Homo") none [.mk 12 (some "Homo sapiens") none [],
          .mk 13 (some "Homo erectus") none []],
        .mk 14 (some "Pan troglodytes") none []]) none =
      .ok (Clade.mk 0 (some "Hominidae") none
        [.mk 1 (some "Homo") (some 1) [.mk 2 (some "Homo sapiens") (some 1) [],
          .mk 3 (some "Homo erectus") (some 1) []],
        .mk 4 (some "Pan troglodytes") (some 1) []],
        [some "Homo", some "Hominidae", some "Homo sapiens", some "Homo erectus",
          some "Pan troglodytes"]) := by rfl
  refine ⟨⟨by decide, by decide⟩, ?_⟩
  exact (claim_c2
    (Clade.mk 0 none none
      [.mk 1 none (some 1) [.mk 2 (some "Homo sapiens") (some 1) [],
        .mk 3 (some "Homo erectus") (some 1) []],
      .mk 4 (some "Pan troglodytes") (some 1) []])
    (Clade.mk 10 (some "Hominidae") none
      [.mk 11 (some "Homo") none [.mk 12 (some "Homo sapiens") none [],
        .mk 13 (some "Homo erectus") none []],
      .mk 14 (some "Pan troglodytes") none []]) none
    (Clade.mk 0 (some "Hominidae") none
      [.mk 1 (some "Homo") (some 1) [.mk 2 (some "Homo sapiens") (some 1) [],
        .mk 3 (some "Homo erectus") (some 1) []],
      .mk 4 (some "Pan troglodytes") (some 1) []])
    [some "Homo", some "Hominidae", some "Homo sapiens", some "Homo erectus",
      some "Pan troglodytes"]
    (by decide) (by decide) hrun).2 (by decide)
